import Mathlib

/-!
Verification of the rsure specification against a shallow embedding of the
source.  Each section embeds one subsystem of the repository:

* `src/src/escape.rs`      — the escape codec (`Escape for [u8]`, `Unescape for str`)
* `src/src/node.rs`        — the node model and surefile reader
* `src/weave/src/parse.rs` — the weave parsers (`Parser`, `PullParser`)
* `src/weave/src/delta.rs` — delta insertion (`DeltaWriter::close`)
* `src/src/node/fs.rs`     — the filesystem scanner (`ScanIterator`)
* `src/src/node/hashes.rs` — the hash merger and the hash combiner

Rust `u8` values are modelled as `Nat` with explicit `% 256` where overflow
can occur; fallible code returns `Except`/`Option`, with `Option.none`
standing for a Rust panic.
-/

namespace Rsure

/-! ## Escape codec — `src/src/escape.rs`

`escaped` (impl `Escape for [u8]`) passes bytes `b'!' ..= b'~'` except `b'='`
through unchanged and writes every other byte as `=xx` with two lowercase hex
digits.  `unescape` (impl `Unescape for str`) is the phase machine with state
`phase ∈ {0,1,2}` and accumulator `tmp : u8`; its hex arms are, in order,
`b'A'...b'F'`, `b'a'...b'f'`, `b'0'...b'f'` (the third arm is transcribed
exactly as it appears in the source). -/

inductive EscErr where
  | invalidHexCharacter (b : Nat)
  | invalidHexLength
deriving DecidableEq, Repr

/-- Lowercase hex digit, as produced by the Rust format `{:02x}`. -/
def hexDigitChar (n : Nat) : Char :=
  if n < 10 then Char.ofNat (0x30 + n) else Char.ofNat (0x61 + (n - 10))

/-- One byte of `Escape for [u8]`: bytes in `b'!' ..= b'~'` other than `b'='`
are pushed as themselves, all others are written as `=` plus two lowercase
hex digits (`write!(&mut result, "={:02x}", ch)`). -/
def escByte (b : Nat) : List Char :=
  if 0x21 ≤ b ∧ b ≤ 0x7e ∧ b ≠ 0x3d then [Char.ofNat b]
  else ['=', hexDigitChar (b / 16 % 16), hexDigitChar (b % 16)]

/-- `fn escaped(&self) -> String` over a byte sequence. -/
def escaped (l : List Nat) : List Char :=
  l.flatMap escByte

/-- Result of feeding one input byte to the `unescape` state machine. -/
inductive UStep where
  /-- A finished byte is pushed onto `buf`; the machine returns to `(0, 0)`. -/
  | out (b : Nat)
  /-- The machine moves to state `(phase, tmp)` with no output. -/
  | next (phase tmp : Nat)
  /-- The `unescape` loop returns this error. -/
  | fail (e : EscErr)
deriving DecidableEq, Repr

/-- One iteration of the `for byte in self.bytes()` loop of `unescape`,
from state `(phase, tmp)`.  In phase 0 a `=` enters the escape; otherwise the
byte is emitted as-is.  In phases 1 and 2 the accumulator is shifted
(`tmp <<= 4`, on `u8`, hence `% 256`) and the byte is decoded by the three
range arms of the source (`b'A'...b'F'`, `b'a'...b'f'`, `b'0'...b'f'`);
after the second hex byte (`phase == 3`) the accumulated byte is pushed. -/
def unescStep (phase tmp : Nat) (c : Char) : UStep :=
  let b := c.toNat
  if phase = 0 then
    if b = 0x3d then .next 1 tmp else .out b
  else
    let t := tmp * 16 % 256
    let v : Option Nat :=
      if 0x41 ≤ b ∧ b ≤ 0x46 then some (b - 0x41 + 10)
      else if 0x61 ≤ b ∧ b ≤ 0x66 then some (b - 0x61 + 10)
      else if 0x30 ≤ b ∧ b ≤ 0x66 then some (b - 0x30)
      else none
    match v with
    | none => .fail (.invalidHexCharacter b)
    | some v =>
      if phase + 1 = 3 then .out (t ||| v) else .next (phase + 1) (t ||| v)

/-- The full `unescape` loop from state `(phase, tmp)`; at end of input a
nonzero phase is the `InvalidHexLength` error. -/
def unescAux : List Char → Nat → Nat → Except EscErr (List Nat)
  | [], 0, _ => .ok []
  | [], _ + 1, _ => .error .invalidHexLength
  | c :: rest, phase, tmp =>
    match unescStep phase tmp c with
    | .out b =>
      match unescAux rest 0 0 with
      | .ok l => .ok (b :: l)
      | .error e => .error e
    | .next p t => unescAux rest p t
    | .fail e => .error e

/-- `fn unescape(&self) -> Result<Vec<u8>, EscapeError>` on an ASCII string,
modelled over its characters. -/
def unescape (s : List Char) : Except EscErr (List Nat) :=
  unescAux s 0 0

/-- Run the machine over a chunk of characters, returning the emitted bytes
and the final `(phase, tmp)` state.  Used to compose per-byte facts. -/
def runChars : List Char → Nat → Nat → Except EscErr (List Nat × Nat × Nat)
  | [], phase, tmp => .ok ([], phase, tmp)
  | c :: rest, phase, tmp =>
    match unescStep phase tmp c with
    | .out b =>
      match runChars rest 0 0 with
      | .ok (l, p, t) => .ok (b :: l, p, t)
      | .error e => .error e
    | .next p t => runChars rest p t
    | .fail e => .error e

instance exceptDecEq {ε α : Type} [DecidableEq ε] [DecidableEq α] : DecidableEq (Except ε α)
  | .ok a, .ok b => decidable_of_iff (a = b) (by simp)
  | .error a, .error b => decidable_of_iff (a = b) (by simp)
  | .ok _, .error _ => isFalse (by simp)
  | .error _, .ok _ => isFalse (by simp)

lemma unescAux_append (xs : List Char) :
    ∀ (rest : List Char) (phase tmp : Nat) (out : List Nat) (p t : Nat),
    runChars xs phase tmp = .ok (out, p, t) →
    unescAux (xs ++ rest) phase tmp =
      match unescAux rest p t with
      | .ok l => .ok (out ++ l)
      | .error e => .error e := by
  induction xs with
  | nil =>
    intro rest phase tmp out p t h
    simp [runChars] at h
    obtain ⟨h1, h2, h3⟩ := h
    subst h1; subst h2; subst h3
    simp
    cases unescAux rest phase tmp <;> simp
  | cons c cs ih =>
    intro rest phase tmp out p t h
    simp only [runChars] at h
    simp only [List.cons_append, unescAux]
    cases hstep : unescStep phase tmp c with
    | out b =>
      rw [hstep] at h
      cases hrun : runChars cs 0 0 with
      | ok res =>
        obtain ⟨l, p', t'⟩ := res
        rw [hrun] at h
        simp at h
        obtain ⟨h1, h2, h3⟩ := h
        subst h1; subst h2; subst h3
        rw [show cs.append rest = cs ++ rest from rfl, ih rest 0 0 l p' t' hrun]
        cases unescAux rest p' t' <;> simp
      | error e =>
        rw [hrun] at h
        simp at h
    | next p' t' =>
      rw [hstep] at h
      exact ih rest p' t' out p t h
    | fail e =>
      rw [hstep] at h
      simp at h

set_option maxRecDepth 40000 in
/-- Per-byte fact, checked over all 256 byte values: feeding the encoding of
one byte to the machine in its initial state emits exactly that byte and
returns to the initial state. -/
lemma runChars_escByte : ∀ b : Fin 256, runChars (escByte b.val) 0 0 = .ok ([b.val], 0, 0) := by
  decide

/-- Claim C3: escape round-trip.  For every byte sequence `b` (each element
below 256, as `u8` guarantees), `unescape (escaped b) = Ok b`. -/
theorem escape_roundtrip (l : List Nat) (h : ∀ b ∈ l, b < 256) :
    unescape (escaped l) = .ok l := by
  unfold unescape
  induction l with
  | nil => rfl
  | cons b rest ih =>
    have hb : b < 256 := h b (List.mem_cons_self b rest)
    have hrest : ∀ x ∈ rest, x < 256 := fun x hx => h x (List.mem_cons_of_mem b hx)
    have hrun := runChars_escByte ⟨b, hb⟩
    have : escaped (b :: rest) = escByte b ++ escaped rest := by
      simp [escaped]
    rw [this, unescAux_append (escByte b) (escaped rest) 0 0 [b] 0 0 hrun, ih hrest]
    simp

/-- Witness for C3 at a concrete byte sequence. -/
theorem escape_roundtrip_witness :
    (∀ b ∈ [0, 0x21, 0x3d, 0x5b, 0x5d, 0x7e, 255], b < 256) ∧
      unescape (escaped [0, 0x21, 0x3d, 0x5b, 0x5d, 0x7e, 255]) =
        .ok [0, 0x21, 0x3d, 0x5b, 0x5d, 0x7e, 255] :=
  ⟨by decide, escape_roundtrip [0, 0x21, 0x3d, 0x5b, 0x5d, 0x7e, 255] (by decide)⟩

/-- The sixteen characters an escape sequence may use after `=`. -/
def hexAlphabet : List Char :=
  (List.range 16).map hexDigitChar

/-- Claim C4, counterexample: the code passes `b'['` (0x5b) through
unchanged, while the claim says `[` is encoded as `=` plus two hex digits.
(The passthrough range of the source is `b'!' ..= b'~'` minus only `=`.) -/
theorem escaped_bracket_passthrough :
    escaped [0x5b] = ['['] ∧ escaped [0x5d] = [']'] ∧ ['['] ≠ ['=', '5', 'b'] := by
  decide

lemma escByte_eq_of_lt (b : Nat) (hb : b < 256) :
    escByte b =
      if 0x21 ≤ b ∧ b ≤ 0x7e ∧ b ≠ 0x3d then [Char.ofNat b]
      else ['=', hexDigitChar (b / 16), hexDigitChar (b % 16)] := by
  have : b / 16 % 16 = b / 16 := Nat.mod_eq_of_lt (by omega)
  rw [escByte, this]

set_option maxRecDepth 40000 in
lemma hexDigitChar_mem_alphabet : ∀ b : Fin 256,
    hexDigitChar (b.val / 16) ∈ hexAlphabet ∧ hexDigitChar (b.val % 16) ∈ hexAlphabet := by
  decide

/-- Claim C4, amended: every byte in `0x21 ..= 0x7e` other than `=` (so in
particular `[` and `]`) appears in the encoding as itself, and every other
byte appears as `=` followed by exactly two lowercase hex digits. -/
theorem escape_encoding (l : List Nat) (h : ∀ b ∈ l, b < 256) :
    escaped l = l.flatMap (fun b =>
        if 0x21 ≤ b ∧ b ≤ 0x7e ∧ b ≠ 0x3d then [Char.ofNat b]
        else ['=', hexDigitChar (b / 16), hexDigitChar (b % 16)]) ∧
      ∀ b ∈ l, hexDigitChar (b / 16) ∈ hexAlphabet ∧ hexDigitChar (b % 16) ∈ hexAlphabet := by
  constructor
  · induction l with
    | nil => rfl
    | cons b rest ih =>
      have hb : b < 256 := h b (List.mem_cons_self b rest)
      have hrest : ∀ x ∈ rest, x < 256 := fun x hx => h x (List.mem_cons_of_mem b hx)
      simp only [escaped, List.flatMap_cons] at *
      rw [escByte_eq_of_lt b hb, ih hrest]
  · intro b hb
    exact hexDigitChar_mem_alphabet ⟨b, h b hb⟩

/-- Witness for the amended C4 at a concrete byte sequence. -/
theorem escape_encoding_witness :
    (∀ b ∈ [0x5b, 0x3d, 0x00], b < 256) ∧
      escaped [0x5b, 0x3d, 0x00] = ['[', '=', '3', 'd', '=', '0', '0'] :=
  ⟨by decide, by
    have := (escape_encoding [0x5b, 0x3d, 0x00] (by decide)).1
    rw [this]; decide⟩

/-- Claim C5, code evaluated at the failing input: `G` (0x47) is not a hex
digit, yet `unescape "=0G"` succeeds with `Ok([0x17])` instead of failing
with `InvalidHexCharacter(b'G')` — the arm `b'0'...b'f'` of the source also
covers `0x3a ..= 0x40` and `0x47 ..= 0x60`. -/
theorem unescape_nonhex_accepted :
    unescape ['=', '0', 'G'] = .ok [23] ∧
      ¬((0x30 ≤ 0x47 ∧ 0x47 ≤ 0x39) ∨ (0x41 ≤ 0x47 ∧ 0x47 ≤ 0x46) ∨
        (0x61 ≤ 0x47 ∧ 0x47 ≤ 0x66)) := by
  decide

/-! ## Byte and string ordering

Rust compares `OsStr` names and `String`s by their bytes; UTF-8 byte order
coincides with scalar-value order, so a character-wise lexicographic
comparison is the same relation.  These orders are shared by the scanner,
the attribute maps (`BTreeMap` key order) and the combiner. -/

/-- Byte-lexicographic strict order, as `OsStr`'s `Ord` compares names. -/
def bytesLt : List Nat → List Nat → Bool
  | [], [] => false
  | [], _ :: _ => true
  | _ :: _, [] => false
  | a :: as, b :: bs => if a < b then true else if b < a then false else bytesLt as bs

def bytesLe (a b : List Nat) : Bool :=
  !bytesLt b a

/-- Lexicographic order on lists of characters. -/
def charsLt (a b : List Char) : Bool :=
  bytesLt (a.map Char.toNat) (b.map Char.toNat)

/-- Rust `String` order (byte order = scalar-value order). -/
def strLt (a b : String) : Bool :=
  charsLt a.toList b.toList

/-! ## Node model and surefile reader — `src/src/node.rs`

`SureNode` is the four-variant stream node.  Attribute maps
(`AttMap = BTreeMap<String, String>`) are modelled as sorted association
lists with `attsInsert`/`attsGet`.  The surefile body reader
(`ReadIterator::next`, `decode_entity`, `get_delim`) is modelled over lines
of ASCII characters (escaped surefile content is printable ASCII);
`Option.none` stands for a panic (slice index out of bounds, failed
`assert!`, or `unwrap` of `None`). -/

abbrev Atts := List (String × String)

/-- `BTreeMap::insert`: keep the association list sorted by key, replacing
an existing binding. -/
def attsInsert (k v : String) : Atts → Atts
  | [] => [(k, v)]
  | (k', v') :: rest =>
    if k = k' then (k, v) :: rest
    else if strLt k k' then (k, v) :: (k', v') :: rest
    else (k', v') :: attsInsert k v rest

/-- `BTreeMap::get`. -/
def attsGet (a : Atts) (k : String) : Option String :=
  (a.find? (fun p => p.1 = k)).map (fun p => p.2)

/-- `BTreeMap::contains_key`. -/
def attsContains (a : Atts) (k : String) : Bool :=
  (attsGet a k).isSome

inductive SureNode where
  | enter (name : String) (atts : Atts)
  | leave
  | file (name : String) (atts : Atts)
  | sep
deriving DecidableEq, Repr

namespace SureNode

def is_enter : SureNode → Bool
  | .enter _ _ => true
  | _ => false

def is_leave : SureNode → Bool
  | .leave => true
  | _ => false

def is_sep : SureNode → Bool
  | .sep => true
  | _ => false

/-- `needs_hash`: a `File` whose `kind` is `file` and that has no `sha1`. -/
def needs_hash : SureNode → Bool
  | .file _ atts => attsGet atts "kind" = some "file" ∧ ¬attsContains atts "sha1"
  | _ => false

/-- `name()`, which panics on `Sep`/`Leave`; `none` is the panic. -/
def name? : SureNode → Option String
  | .enter n _ => some n
  | .file n _ => some n
  | _ => none

/-- `atts()` (also `atts_mut()`): the attributes of `Enter`/`File` nodes. -/
def atts? : SureNode → Option Atts
  | .enter _ a => some a
  | .file _ a => some a
  | _ => none

end SureNode

inductive SureErr where
  | truncatedSurefile
  | invalidSurefileChar (c : Char)
deriving DecidableEq, Repr

/-- `fn get_delim(text, delim)`: split at the first occurrence of the
delimiter; the source `unwrap`s the position, so a missing delimiter is a
panic (`none`). -/
def get_delim (text : List Char) (delim : Char) : Option (String × List Char) :=
  match text.findIdx? (fun c => c = delim) with
  | none => none
  | some i => some (String.mk (text.take i), text.drop (i + 1))

lemma get_delim_length_lt {text rest : List Char} {delim : Char} {s : String}
    (h : get_delim text delim = some (s, rest)) : rest.length < text.length := by
  unfold get_delim at h
  cases hidx : text.findIdx? (fun c => c = delim) with
  | none => rw [hidx] at h; simp at h
  | some i =>
    rw [hidx] at h
    simp at h
    have hi : i < text.length := List.findIdx?_eq_some_iff_findIdx_eq.mp hidx |>.1
    have := h.2
    subst this
    simp [List.length_drop]
    omega

/-- The `while text[0] != b']'` loop of `decode_entity`: read `key value`
pairs until the closing bracket.  An empty remainder panics on `text[0]`;
a missing delimiter panics inside `get_delim`.  The loop terminates because
each iteration strictly shortens the text (each `get_delim` drops at least
the delimiter); the structural fuel below starts at the text length, which
therefore never runs out. -/
def decodeAttsF : Nat → List Char → Atts → Option Atts
  | _, [], _ => none
  | 0, _ :: _, _ => none
  | fuel + 1, c :: rest, acc =>
    if c = ']' then some acc
    else
      match get_delim (c :: rest) ' ' with
      | none => none
      | some (key, t2) =>
        match get_delim t2 ' ' with
        | none => none
        | some (value, t3) => decodeAttsF fuel t3 (attsInsert key value acc)

def decodeAtts (text : List Char) (acc : Atts) : Option Atts :=
  decodeAttsF text.length text acc

/-- `fn decode_entity(text)`: name up to the first space, then
`assert!(text[0] == b'[')`, then the attribute pairs.  `none` is a panic
(failed `unwrap`, empty slice, or failed `assert!`). -/
def decode_entity (text : List Char) : Option (String × Atts) :=
  match get_delim text ' ' with
  | none => none
  | some (name, rest) =>
    match rest with
    | [] => none
    | c :: rest' =>
      if c = '[' then (decodeAtts rest' []).map (fun a => (name, a))
      else none

/-- The body of `ReadIterator::next` for one fetched line: dispatch on the
first byte (`d`, `f`, `-`, `u`, otherwise `InvalidSurefileChar`); an empty
line panics on `line[0]`. -/
def readNodeLine (line : List Char) : Option (Except SureErr SureNode) :=
  match line with
  | [] => none
  | c :: rest =>
    if c = 'd' then (decode_entity rest).map (fun p => .ok (.enter p.1 p.2))
    else if c = 'f' then (decode_entity rest).map (fun p => .ok (.file p.1 p.2))
    else if c = '-' then some (.ok .sep)
    else if c = 'u' then some (.ok .leave)
    else some (.error (.invalidSurefileChar c))

/-- Loading a surefile body: run `ReadIterator` over the body lines (the
two header lines have already been checked by `load_from`).  The iterator
tracks a depth, finishing when a `u` line returns it to zero; premature end
of input is `TruncatedSurefile`.  The depth is an `Int` because the Rust
`usize` decrement wraps rather than saturates. -/
def readNodes : List (List Char) → Int → Option (Except SureErr (List SureNode))
  | [], _ => some (.error .truncatedSurefile)
  | line :: rest, depth =>
    match readNodeLine line with
    | none => none
    | some (.error e) => some (.error e)
    | some (.ok n) =>
      let depth' : Int :=
        match n with
        | .enter _ _ => depth + 1
        | .leave => depth - 1
        | _ => depth
      if n = SureNode.leave ∧ depth' = 0 then some (.ok [n])
      else
        match readNodes rest depth' with
        | none => none
        | some (.error e) => some (.error e)
        | some (.ok ns) => some (.ok (n :: ns))

/-- Claim C9: surefile reading is not total.  An empty body line panics
(index 0 of an empty slice); a `d` line with no space panics in
`get_delim`'s `unwrap`; a `d` line whose name is followed by something
other than `[` fails the `assert!`.  A well-formed body, by contrast, loads
fine — so these inputs abort instead of yielding `Err`. -/
theorem surefile_reading_panics :
    readNodes [[]] 0 = none ∧
      readNodes ["dfoo".toList] 0 = none ∧
      readNodes ["dfoo x".toList] 0 = none ∧
      readNodes ["dr []".toList, "-".toList, "u".toList] 0 =
        some (.ok [.enter "r" [], .sep, .leave]) :=
  ⟨rfl, rfl, rfl, by decide⟩

/-! ## Weave parsing — `src/weave/src/parse.rs`

Weave body lines are lists of characters (weave content is ASCII-framed:
a control line is `\x01` + `I`/`D`/`E` + a space + a decimal delta).  The
delta state (`delta_state : Vec<OneDelta>`) is kept sorted with the largest
delta first; `pop`/`push` do a binary search, panicking (`unreachable!` /
`"Duplicate state in push"`) when the entry is missing resp. already
present — `Option.none` models those panics.  These helpers are shared
verbatim between `Parser` and `PullParser` in the source. -/

inductive StateMode where
  | keep
  | skip
  | next
deriving DecidableEq, Repr

abbrev DeltaState := List (Nat × StateMode)

/-- `fn pop(&mut self, delta)`: remove the entry with this delta from the
descending-sorted state; a missing entry is the `unreachable!()` panic. -/
def popState (delta : Nat) : DeltaState → Option DeltaState
  | [] => none
  | (d, m) :: rest =>
    if d = delta then some rest
    else if d < delta then none
    else (popState delta rest).map (fun ds => (d, m) :: ds)

/-- `fn push(&mut self, delta, mode)`: insert keeping the descending order;
an existing entry is the `panic!("Duplicate state in push")`. -/
def pushState (delta : Nat) (mode : StateMode) : DeltaState → Option DeltaState
  | [] => some [(delta, mode)]
  | (d, m) :: rest =>
    if d = delta then none
    else if delta > d then some ((delta, mode) :: (d, m) :: rest)
    else (pushState delta mode rest).map (fun ds => (d, m) :: ds)

/-- `fn update_keep`: scan from the largest delta; the first `Keep` turns
keeping on, the first `Skip` turns it off, `Next` is transparent, and an
exhausted stack means not keeping. -/
def updateKeep : DeltaState → Bool
  | [] => false
  | (_, .keep) :: _ => true
  | (_, .skip) :: _ => false
  | (_, .next) :: rest => updateKeep rest

/-- Value of a maximal run of decimal digits (`usize::from_str` body). -/
def digitsVal : List Char → Nat → Option Nat
  | [], acc => some acc
  | c :: rest, acc =>
    if '0' ≤ c ∧ c ≤ '9' then digitsVal rest (acc * 10 + (c.toNat - 48)) else none

/-- `str::parse::<usize>()`: an optional `+` sign then at least one digit. -/
def parseUsizeL : List Char → Option Nat
  | [] => none
  | '+' :: rest => if rest.isEmpty then none else digitsVal rest 0
  | l => digitsVal l 0

/-- Decimal rendering of a delta number, as `write!("{}", delta)` emits. -/
def natChars (n : Nat) : List Char :=
  Nat.toDigits 10 n

/-- A rendered control line `\x01I n` / `\x01D n` / `\x01E n`. -/
def ctrlLine (k : Char) (n : Nat) : List Char :=
  '\x01' :: k :: ' ' :: natChars n

/-- The entries yielded by `PullParser` (enum `Entry`). -/
inductive WEntry where
  | insertE (delta : Nat)
  | deleteE (delta : Nat)
  | endE (delta : Nat)
  | plainE (text : List Char) (keep : Bool)
  | controlE
deriving DecidableEq, Repr

/-- The mutable state of a `PullParser`: the requested delta, the delta
state stack, and the current `keeping` flag. -/
structure PullState where
  delta : Nat
  deltaState : DeltaState
  keeping : Bool
deriving DecidableEq, Repr

def initPull (delta : Nat) : PullState :=
  { delta := delta, deltaState := [], keeping := false }

/-- `PullParser::next` on one input line.  A line is textual when empty or
when its first byte is not `\x01`; control lines shorter than 4 bytes or
with an unknown letter yield `Entry::Control`.  `none` models the panics:
the `parse().unwrap()` on a malformed delta number, and the `pop`/`push`
panics. -/
def pullNext (st : PullState) (line : List Char) : Option (WEntry × PullState) :=
  let textual := match line with
    | [] => true
    | c :: _ => c ≠ '\x01'
  if textual then some (.plainE line st.keeping, st)
  else if line.length < 4 then some (.controlE, st)
  else
    match parseUsizeL (line.drop 3) with
    | none =>
      if line.get? 1 = some 'I' ∨ line.get? 1 = some 'D' ∨ line.get? 1 = some 'E' then none
      else some (.controlE, st)
    | some n =>
      match line.get? 1 with
      | some 'E' =>
        match popState n st.deltaState with
        | none => none
        | some ds => some (.endE n, { st with deltaState := ds, keeping := updateKeep ds })
      | some 'I' =>
        let mode := if st.delta ≥ n then StateMode.keep else StateMode.skip
        match pushState n mode st.deltaState with
        | none => none
        | some ds => some (.insertE n, { st with deltaState := ds, keeping := updateKeep ds })
      | some 'D' =>
        let mode := if st.delta ≥ n then StateMode.skip else StateMode.next
        match pushState n mode st.deltaState with
        | none => none
        | some ds => some (.deleteE n, { st with deltaState := ds, keeping := updateKeep ds })
      | _ => some (.controlE, st)

/-- Drive `PullParser` over a whole body, collecting the entries. -/
def pullRun (st : PullState) : List (List Char) → Option (List WEntry × PullState)
  | [] => some ([], st)
  | line :: rest =>
    match pullNext st line with
    | none => none
    | some (e, st') =>
      match pullRun st' rest with
      | none => none
      | some (es, stF) => some (e :: es, stF)

/-- Extraction of delta `d` from a weave body: the plain lines whose `keep`
flag is set, exactly what `Parser` with a `RevWriter` sink (or `PullParser`)
delivers — both share the same delta-state logic. -/
def extractDelta (d : Nat) (body : List (List Char)) : Option (List (List Char)) :=
  match pullRun (initPull d) body with
  | none => none
  | some (es, _) =>
    some (es.filterMap (fun e =>
      match e with
      | .plainE text true => some text
      | _ => none))

/-- Claim C10: weave control parsing is not total.  An `\x01E n` with no
open region hits `pop`'s `unreachable!`; a second `\x01I n` (or `\x01D n`)
for an open delta panics with "Duplicate state in push"; and a control line
whose trailing number does not parse panics on `unwrap` in
`PullParser::next`.  A well-formed body parses fine. -/
theorem weave_parsing_panics :
    pullRun (initPull 1) [('\x01' :: 'E' :: ' ' :: ['1'])] = none ∧
      pullRun (initPull 1) [ctrlLine 'I' 1, ctrlLine 'I' 1] = none ∧
      pullRun (initPull 1) [ctrlLine 'D' 2, ctrlLine 'D' 2] = none ∧
      pullRun (initPull 1) [('\x01' :: 'E' :: ' ' :: ['x'])] = none ∧
      extractDelta 1 [ctrlLine 'I' 1, ['x'], ctrlLine 'E' 1] = some [['x']] := by
  repeat refine ⟨by decide, ?_⟩
  decide

/-! ## Delta insertion — `src/weave/src/delta.rs` and `src/weave/src/newweave.rs`

`DeltaWriter::close` re-parses the existing weave with a `WeaveWriter` sink
(which re-emits every plain line and every `I`/`D`/`E` control line), while
walking the output of the external `diff` program line by line.  Each diff
line is first matched against the regex `(\d+)(,(\d+))?([acd]).*$` — note
that this regex is *unanchored*, so it is found anywhere in the line.  The
parser cursor (`parse_to`) counts only kept plain lines and holds the
stopping line as `pending`. -/

inductive WErr where
  | unexpectedEof
  | parseIntError
  | diffKilled
  | diffError (code : Int)
deriving DecidableEq, Repr

/-- Split a maximal run of decimal digits off the front. -/
def splitDigits : List Char → (List Char × List Char)
  | [] => ([], [])
  | c :: rest =>
    if '0' ≤ c ∧ c ≤ '9' then
      let p := splitDigits rest
      (c :: p.1, p.2)
    else ([], c :: rest)

/-- A match of `(\d+)(,(\d+))?([acd])` starting exactly here (`.*$` always
matches the remainder).  The leading `\d+` is necessarily the maximal digit
run: with fewer digits the next pattern element would face a digit, which
matches neither `,` nor `[acd]`; the same argument fixes the inner run. -/
def matchCore (l : List Char) : Option (Nat × Nat × Char) :=
  let p := splitDigits l
  match p.1 with
  | [] => none
  | ds =>
    match digitsVal ds 0 with
    | none => none
    | some leftv =>
      match p.2 with
      | ',' :: r2 =>
        let q := splitDigits r2
        match q.1 with
        | [] => none
        | ds2 =>
          match digitsVal ds2 0 with
          | none => none
          | some rightv =>
            match q.2 with
            | c :: _ => if c = 'a' ∨ c = 'c' ∨ c = 'd' then some (leftv, rightv, c) else none
            | [] => none
      | c :: _ => if c = 'a' ∨ c = 'c' ∨ c = 'd' then some (leftv, leftv, c) else none
      | [] => none

/-- `Regex::captures` with pattern `(\d+)(,(\d+))?([acd]).*$`: the leftmost
position with a match wins; captures are `(left, right, cmd)`, with
`right = left` when the comma group is absent (as in the source). -/
def regexFind : List Char → Option (Nat × Nat × Char)
  | [] => none
  | c :: rest =>
    match matchCore (c :: rest) with
    | some r => some r
    | none => regexFind rest

/-- The state of the `Parser` driven by `DeltaWriter::close`: remaining
input lines, requested delta, delta-state stack, `keeping`, the `pending`
line, and the kept-line counter `lineno`. -/
structure Cursor where
  rest : List (List Char)
  delta : Nat
  ds : DeltaState
  keeping : Bool
  pending : Option (List Char)
  lineno : Nat
deriving DecidableEq, Repr

def initCursor (body : List (List Char)) (delta : Nat) : Cursor :=
  { rest := body, delta := delta, ds := [], keeping := false, pending := none, lineno := 0 }

/-- The loop of `Parser::parse_to` with a `WeaveWriter` sink: every plain
line is emitted, every `I`/`D`/`E` control line is re-emitted canonically,
short or unknown control lines are dropped.  Kept plain lines count up
`lineno`; reaching `target` holds that line as `pending` and returns the
target, end of input returns 0.  `none` models the `pop`/`push` panics. -/
def parseToGo (delta : Nat) (target : Nat) :
    List (List Char) → DeltaState → Bool → Nat →
    Option (Except WErr (List (List Char) × Nat × Cursor))
  | [], ds, keeping, lineno =>
    some (.ok ([], 0, ⟨[], delta, ds, keeping, none, lineno⟩))
  | line :: rest, ds, keeping, lineno =>
    let textual := match line with
      | [] => true
      | c :: _ => c ≠ '\x01'
    if textual then
      if keeping then
        if lineno + 1 = target then
          some (.ok ([], target, ⟨rest, delta, ds, keeping, some line, lineno + 1⟩))
        else
          (parseToGo delta target rest ds keeping (lineno + 1)).map
            (Except.map (fun r => (line :: r.1, r.2.1, r.2.2)))
      else
        (parseToGo delta target rest ds keeping lineno).map
          (Except.map (fun r => (line :: r.1, r.2.1, r.2.2)))
    else if line.length < 4 then
      parseToGo delta target rest ds keeping lineno
    else if line.get? 1 ≠ some 'I' ∧ line.get? 1 ≠ some 'D' ∧ line.get? 1 ≠ some 'E' then
      parseToGo delta target rest ds keeping lineno
    else
      match parseUsizeL (line.drop 3) with
      | none => some (.error .parseIntError)
      | some n =>
        match line.get? 1 with
        | some 'E' =>
          match popState n ds with
          | none => none
          | some ds' =>
            (parseToGo delta target rest ds' (updateKeep ds') lineno).map
              (Except.map (fun r => (ctrlLine 'E' n :: r.1, r.2.1, r.2.2)))
        | some 'I' =>
          match pushState n (if delta ≥ n then .keep else .skip) ds with
          | none => none
          | some ds' =>
            (parseToGo delta target rest ds' (updateKeep ds') lineno).map
              (Except.map (fun r => (ctrlLine 'I' n :: r.1, r.2.1, r.2.2)))
        | some 'D' =>
          match pushState n (if delta ≥ n then .skip else .next) ds with
          | none => none
          | some ds' =>
            (parseToGo delta target rest ds' (updateKeep ds') lineno).map
              (Except.map (fun r => (ctrlLine 'D' n :: r.1, r.2.1, r.2.2)))
        | _ => parseToGo delta target rest ds keeping lineno

/-- `Parser::parse_to(target)`: first flush the pending line to the sink,
then run the loop. -/
def parseTo (c : Cursor) (target : Nat) :
    Option (Except WErr (List (List Char) × Nat × Cursor)) :=
  let pendEmit := match c.pending with
    | none => []
    | some p => [p]
  (parseToGo c.delta target c.rest c.ds c.keeping c.lineno).map
    (Except.map (fun r => (pendEmit ++ r.1, r.2.1, r.2.2)))

/-- The `for line in lines` loop of `DeltaWriter::close`, over the diff
output, producing the lines written to the new temporary weave.  `none`
models the panics (`"Unexpected parse result"`, `"Unexpected blank line in
diff"`, `"Unexpected diff line"`, a `>` line shorter than 2 bytes, and the
parser panics); after the loop, a pending insert is closed and, unless the
parser already hit end of input, the remainder of the old weave is copied. -/
def closeLoop (nnew : Nat) :
    List (List Char) → Cursor → Bool → Bool →
    Option (Except WErr (List (List Char)))
  | [], cur, isDone, isAdding =>
    let tailAdd := if isAdding then [ctrlLine 'E' nnew] else []
    if isDone then some (.ok tailAdd)
    else
      match parseTo cur 0 with
      | none => none
      | some (.error e) => some (.error e)
      | some (.ok (out, 0, _)) => some (.ok (tailAdd ++ out))
      | some (.ok (_, _ + 1, _)) => none
  | line :: rest, cur, isDone, isAdding =>
    match regexFind line with
    | some (left, right, cmd) =>
      let closePrev := if isAdding then [ctrlLine 'E' nnew] else []
      let segIns := if cmd = 'c' ∨ cmd = 'a' then [ctrlLine 'I' nnew] else []
      let adding' := cmd = 'c' ∨ cmd = 'a'
      if cmd = 'd' ∨ cmd = 'c' then
        match parseTo cur left with
        | none => none
        | some (.error e) => some (.error e)
        | some (.ok (o1, code1, cur1)) =>
          if code1 = 0 then some (.error .unexpectedEof)
          else if code1 ≠ left then none
          else
            match parseTo cur1 (right + 1) with
            | none => none
            | some (.error e) => some (.error e)
            | some (.ok (o2, code2, cur2)) =>
              if code2 = 0 ∨ code2 = right + 1 then
                (closeLoop nnew rest cur2 (isDone ∨ code2 = 0) adding').map
                  (Except.map (fun o =>
                    closePrev ++ o1 ++ [ctrlLine 'D' nnew] ++ o2 ++ [ctrlLine 'E' nnew] ++
                      segIns ++ o))
              else none
      else
        match parseTo cur (right + 1) with
        | none => none
        | some (.error e) => some (.error e)
        | some (.ok (o1, code1, cur1)) =>
          if code1 = 0 ∨ code1 = right + 1 then
            (closeLoop nnew rest cur1 (isDone ∨ code1 = 0) adding').map
              (Except.map (fun o => closePrev ++ o1 ++ segIns ++ o))
          else none
    | none =>
      match line with
      | [] => none
      | '<' :: _ => closeLoop nnew rest cur isDone isAdding
      | '-' :: _ => closeLoop nnew rest cur isDone isAdding
      | '>' :: l2 =>
        match l2 with
        | [] => none
        | _ :: content =>
          (closeLoop nnew rest cur isDone isAdding).map
            (Except.map (fun o => content :: o))
      | _ => none

/-- Renames and removals performed at the very end of
`DeltaWriter::close`. -/
inductive FsOp where
  | renameMainToBackup
  | renameNewToMain
  | removeBaseTemp
  | removeNewTemp
deriving DecidableEq, Repr

/-- `DeltaWriter::close` after the user content is flushed: run the write
loop over the diff output, then check the diff exit status
(`None` = killed by a signal, `Some(0)`/`Some(1)` = benign, anything else
an error carrying the code), and only then rename main to backup, rename
the new temp weave onto main, and delete the two plain temp files.  The
returned list records the file operations that touch the store. -/
def closeModel (body : List (List Char)) (base : Nat) (diffOut : List (List Char))
    (status : Option Int) :
    Option (List FsOp × Except WErr (List (List Char))) :=
  match closeLoop (base + 1) diffOut (initCursor body base) false false with
  | none => none
  | some (.error e) => some ([], .error e)
  | some (.ok out) =>
    match status with
    | none => some ([], .error .diffKilled)
    | some code =>
      if code = 0 ∨ code = 1 then
        some ([.renameMainToBackup, .renameNewToMain, .removeBaseTemp, .removeNewTemp],
          .ok out)
      else some ([], .error (.diffError code))

/-- Body of a brand-new weave (`NewWeave::new` + `NewWeave::close`, header
line aside): `\x01I 1`, the user's lines, `\x01E 1`. -/
def newWeaveBody (content : List (List Char)) : List (List Char) :=
  ctrlLine 'I' 1 :: content ++ [ctrlLine 'E' 1]

/-- One hunk of traditional diff output: old-side range `l1[,l2]`, command
`a`/`c`/`d`, new-side range `r1[,r2]`, the removed and added lines. -/
structure DiffHunk where
  l1 : Nat
  l2 : Nat
  cmd : Char
  r1 : Nat
  r2 : Nat
  removed : List (List Char)
  added : List (List Char)
deriving DecidableEq, Repr

def renderRange (a b : Nat) : List Char :=
  natChars a ++ (if b = a then [] else ',' :: natChars b)

/-- Render a hunk the way `diff` prints it: the `L[,R]{a|c|d}L'[,R']`
header, `< `-prefixed removed lines, a `---` separator for `c`, and
`> `-prefixed added lines. -/
def renderHunk (h : DiffHunk) : List (List Char) :=
  (renderRange h.l1 h.l2 ++ [h.cmd] ++ renderRange h.r1 h.r2) ::
    (h.removed.map (fun l => '<' :: ' ' :: l) ++
      (if h.cmd = 'c' then [['-', '-', '-']] else []) ++
      h.added.map (fun l => '>' :: ' ' :: l))

def renderDiff (hs : List DiffHunk) : List (List Char) :=
  hs.flatMap renderHunk

/-- Semantics of a hunk list against the old file (lines numbered from
`pos`): `a` appends after line `l1`, `d` deletes `l1..l2` (which must equal
the recorded removed lines), `c` replaces them.  `some new` means the hunks
correctly transform the old lines into `new`. -/
def applyDiff : List (List Char) → Nat → List DiffHunk → Option (List (List Char))
  | old, _, [] => some old
  | old, pos, h :: hs =>
    let start := if h.cmd = 'a' then h.l1 + 1 else h.l1
    if start < pos then none
    else
      let ncopy := start - pos
      if ncopy > old.length then none
      else
        let copied := old.take ncopy
        let rest := old.drop ncopy
        if h.cmd = 'a' then
          if h.removed = [] ∧ h.l2 = h.l1 then
            (applyDiff rest start hs).map (fun tl => copied ++ h.added ++ tl)
          else none
        else if h.cmd = 'd' ∨ h.cmd = 'c' then
          let ndel := h.l2 - h.l1 + 1
          if rest.take ndel = h.removed ∧ (h.cmd = 'd' → h.added = []) ∧ h.l1 ≤ h.l2 then
            (applyDiff (rest.drop ndel) (h.l2 + 1) hs).map (fun tl => copied ++ h.added ++ tl)
          else none
        else none

/-- Claim C1, the code evaluated at a failing input.  Write delta 1 =
`["x"]` to a new weave, then delta 2 = `["x", "5a9"]` based on delta 1.
The correct diff of the two contents is the single hunk `1a2` with added
line `5a9` (first two conjuncts).  Running `DeltaWriter::close` on that
diff output, the added line arrives as `> 5a9`, the unanchored hunk regex
matches `5a` inside it and treats it as a hunk header, so the content line
is never written: the resulting weave yields `["x"]` for delta 2 instead of
`["x", "5a9"]`. -/
theorem weave_roundtrip_failure :
    applyDiff [['x']] 1 [⟨1, 1, 'a', 2, 2, [], [['5', 'a', '9']]⟩] =
        some [['x'], ['5', 'a', '9']] ∧
      renderDiff [⟨1, 1, 'a', 2, 2, [], [['5', 'a', '9']]⟩] =
        [['1', 'a', '2'], ['>', ' ', '5', 'a', '9']] ∧
      closeModel (newWeaveBody [['x']]) 1
          [['1', 'a', '2'], ['>', ' ', '5', 'a', '9']] (some 1) =
        some ([.renameMainToBackup, .renameNewToMain, .removeBaseTemp, .removeNewTemp],
          .ok [ctrlLine 'I' 1, ['x'], ctrlLine 'E' 1, ctrlLine 'I' 2, ctrlLine 'E' 2,
            ctrlLine 'I' 2, ctrlLine 'E' 2]) ∧
      extractDelta 2 [ctrlLine 'I' 1, ['x'], ctrlLine 'E' 1, ctrlLine 'I' 2, ctrlLine 'E' 2,
          ctrlLine 'I' 2, ctrlLine 'E' 2] = some [['x']] ∧
      (some [['x']] : Option (List (List Char))) ≠ some [['x'], ['5', 'a', '9']] := by
  refine ⟨by decide, by decide, by decide, by decide, by decide⟩

/-- Claim C8: when the write loop succeeded, a signal death of `diff` fails
with `DiffKilled` and an exit code other than 0 and 1 fails with
`DiffError(code)`; and on every failure outcome of `close` no rename is
performed — in particular the new temp weave is moved onto the main name
only when the status check passed (exit 0 or 1). -/
theorem delta_close_failure_handling (body diffOut : List (List Char)) (base : Nat)
    (status : Option Int) :
    (∀ out, closeLoop (base + 1) diffOut (initCursor body base) false false =
        some (.ok out) →
      closeModel body base diffOut none = some ([], .error .diffKilled) ∧
      ∀ code : Int, code ≠ 0 → code ≠ 1 →
        closeModel body base diffOut (some code) = some ([], .error (.diffError code))) ∧
    (∀ ops res, closeModel body base diffOut status = some (ops, res) →
      ((∃ e, res = .error e) →
        FsOp.renameNewToMain ∉ ops ∧ FsOp.renameMainToBackup ∉ ops) ∧
      (∀ out, res = .ok out → status = some 0 ∨ status = some 1)) := by
  constructor
  · intro out hloop
    refine ⟨by rw [closeModel, hloop], ?_⟩
    intro code h0 h1
    rw [closeModel, hloop]
    simp [h0, h1]
  · intro ops res h
    rw [closeModel] at h
    cases hloop : closeLoop (base + 1) diffOut (initCursor body base) false false with
    | none => rw [hloop] at h; exact absurd h (by simp)
    | some r =>
      rw [hloop] at h
      cases r with
      | error e =>
        simp at h
        obtain ⟨h1, h2⟩ := h
        subst h1; subst h2
        exact ⟨fun _ => ⟨by simp, by simp⟩, fun out hout => by simp at hout⟩
      | ok out =>
        cases status with
        | none =>
          simp at h
          obtain ⟨h1, h2⟩ := h
          subst h1; subst h2
          exact ⟨fun _ => ⟨by simp, by simp⟩, fun o ho => by simp at ho⟩
        | some code =>
          by_cases hc : code = 0 ∨ code = 1
          · simp only [Option.some.injEq, Prod.mk.injEq, hc, if_true, iff_true] at h
            obtain ⟨h1, h2⟩ := h
            subst h1; subst h2
            refine ⟨fun he => ?_, fun o ho => by rcases hc with h | h <;> simp [h]⟩
            obtain ⟨e, he⟩ := he
            simp at he
          · simp only [Option.some.injEq, Prod.mk.injEq, hc, if_false, iff_false] at h
            obtain ⟨h1, h2⟩ := h
            subst h1; subst h2
            exact ⟨fun _ => ⟨by simp, by simp⟩, fun o ho => by simp at ho⟩

/-- Witness for C8: on an empty weave body with empty diff output (the loop
trivially succeeds), a signal gives `DiffKilled` and exit code 2 gives
`DiffError 2`. -/
theorem delta_close_failure_witness :
    closeModel [] 1 [] none = some ([], .error .diffKilled) ∧
      closeModel [] 1 [] (some 2) = some ([], .error (.diffError 2)) :=
  ⟨((delta_close_failure_handling [] [] 1 none).1 [] (by decide)).1,
    ((delta_close_failure_handling [] [] 1 none).1 [] (by decide)).2 2 (by decide) (by decide)⟩

/-! ## Hash merging (pass 2) — `HashMerger::merge` in `src/src/node/hashes.rs`

The side table rows (`SELECT id, hash FROM hashes ORDER BY id`) arrive as a
peekable sequence of `HashInfo { id: i64, hash: Vec<u8> }`.  The merge walks
the node stream keeping a counter of `needs_hash()` nodes; at a needing
node, a peeked row with matching id is consumed and its digest attached as
the lowercase-hex `sha1` attribute, a row with larger id leaves the node
unhashed, and a row with smaller id is the `panic!("Out of sequence hash")`
(modelled as `none`). -/

structure HashInfo where
  id : Int
  hash : List Nat
deriving DecidableEq, Repr

/-- `HEXLOWER.encode`: two lowercase hex digits per byte. -/
def hexEncode (l : List Nat) : List Char :=
  l.flatMap (fun b => [hexDigitChar (b / 16 % 16), hexDigitChar (b % 16)])

/-- `entry.atts_mut().unwrap().insert("sha1", hex)`: `none` is the
`unwrap` panic on a node without attributes. -/
def attachSha (hex : List Char) : SureNode → Option SureNode
  | .file n a => some (.file n (attsInsert "sha1" (String.mk hex) a))
  | .enter n a => some (.enter n (attsInsert "sha1" (String.mk hex) a))
  | _ => none

/-- The loop of `HashMerger::merge` (writing modelled as collecting the
nodes in order). -/
def mergeGo : List SureNode → List HashInfo → Int → Option (List SureNode)
  | [], _, _ => some []
  | entry :: rest, rows, count =>
    if entry.needs_hash then
      match rows with
      | [] => (mergeGo rest [] (count + 1)).map (fun l => entry :: l)
      | hnode :: rtail =>
        if count = hnode.id then
          match attachSha (hexEncode hnode.hash) entry with
          | none => none
          | some entry' => (mergeGo rest rtail (count + 1)).map (fun l => entry' :: l)
        else if count < hnode.id then
          (mergeGo rest (hnode :: rtail) (count + 1)).map (fun l => entry :: l)
        else none
    else (mergeGo rest rows count).map (fun l => entry :: l)

def hashMerge (nodes : List SureNode) (rows : List HashInfo) : Option (List SureNode) :=
  mergeGo nodes rows 0

/-- Specification side: the digest of the row whose id equals the needing
counter of the node, if the side table has one. -/
def rowLookup (rows : List HashInfo) (k : Int) : Option (List Nat) :=
  (rows.find? (fun r => r.id = k)).map (fun r => r.hash)

/-- Add a `sha1` attribute to a `File` node (total spec-side form of
`attachSha`; a needing node is always a `File`). -/
def addSha (hex : List Char) : SureNode → SureNode
  | .file n a => .file n (attsInsert "sha1" (String.mk hex) a)
  | x => x

/-- Specification of the merge: the k-th needing node (counting from `k0`)
gets the digest of the row with id `k`; everything else is unchanged. -/
def mergeSpec : List SureNode → List HashInfo → Int → List SureNode
  | [], _, _ => []
  | n :: rest, rows, k =>
    if n.needs_hash then
      (match rowLookup rows k with
        | some hsh => addSha (hexEncode hsh) n
        | none => n) :: mergeSpec rest rows (k + 1)
    else n :: mergeSpec rest rows k

lemma attachSha_of_needs {n : SureNode} (h : n.needs_hash = true) (hex : List Char) :
    attachSha hex n = some (addSha hex n) := by
  cases n <;> simp [SureNode.needs_hash] at h ⊢ <;> rfl

lemma rowLookup_head_ne {r : HashInfo} {rt : List HashInfo} {k : Int} (h : r.id ≠ k) :
    rowLookup (r :: rt) k = rowLookup rt k := by
  simp [rowLookup, List.find?, h]

lemma rowLookup_none {rows : List HashInfo} {k : Int} (h : ∀ r ∈ rows, k < r.id) :
    rowLookup rows k = none := by
  induction rows with
  | nil => rfl
  | cons r rt ih =>
    have hr := h r (List.mem_cons_self r rt)
    rw [rowLookup_head_ne (by omega)]
    exact ih (fun x hx => h x (List.mem_cons_of_mem r hx))

lemma mergeSpec_drop_head {r : HashInfo} {rt : List HashInfo} :
    ∀ (nodes : List SureNode) (k : Int), r.id < k →
    mergeSpec nodes (r :: rt) k = mergeSpec nodes rt k := by
  intro nodes
  induction nodes with
  | nil => intro k _; rfl
  | cons n rest ih =>
    intro k hk
    by_cases hn : n.needs_hash
    · simp only [mergeSpec, hn, if_pos, rowLookup_head_ne (show r.id ≠ k by omega)]
      rw [ih (k + 1) (by omega)]
    · simp only [mergeSpec, hn, if_neg, Bool.false_eq_true, not_false_iff]
      rw [ih k hk]

lemma mergeGo_eq_spec :
    ∀ (nodes : List SureNode) (rows : List HashInfo) (c : Int),
    rows.Pairwise (fun a b => a.id < b.id) →
    (∀ r ∈ rows, c ≤ r.id) →
    mergeGo nodes rows c = some (mergeSpec nodes rows c) := by
  intro nodes
  induction nodes with
  | nil => intro rows c _ _; rfl
  | cons n rest ih =>
    intro rows c hsort hge
    by_cases hn : n.needs_hash
    · cases rows with
      | nil =>
        simp only [mergeGo, hn, if_pos, mergeSpec]
        rw [ih [] (c + 1) (by simp) (by simp)]
        simp [rowLookup]
      | cons r rt =>
        have hcr : c ≤ r.id := hge r (List.mem_cons_self r rt)
        have hrt : ∀ x ∈ rt, r.id < x.id := fun x hx => (List.pairwise_cons.mp hsort).1 x hx
        by_cases hceq : c = r.id
        · subst hceq
          have hih := ih rt (r.id + 1) (List.pairwise_cons.mp hsort).2
            (fun x hx => by have := hrt x hx; omega)
          have hlook : rowLookup (r :: rt) r.id = some r.hash := by
            simp [rowLookup, List.find?]
          have hdrop := @mergeSpec_drop_head r rt rest (r.id + 1) (show r.id < r.id + 1 by omega)
          simp [mergeGo, hn, attachSha_of_needs hn, hih, mergeSpec, hlook, hdrop]
        · have hclt : c < r.id := by omega
          have hih := ih (r :: rt) (c + 1) hsort
            (by
              intro x hx
              rcases List.mem_cons.mp hx with h | h
              · subst h; omega
              · have := hrt x h; omega)
          have hlook : rowLookup (r :: rt) c = none :=
            rowLookup_none (by
              intro x hx
              rcases List.mem_cons.mp hx with h | h
              · subst h; omega
              · have := hrt x h; omega)
          simp [mergeGo, hn, hceq, hclt, hih, mergeSpec, hlook]
    · simp only [mergeGo, hn, Bool.false_eq_true, if_neg, not_false_iff, mergeSpec]
      rw [ih rows c hsort hge]
      rfl

lemma hexEncode_length (l : List Nat) : (hexEncode l).length = 2 * l.length := by
  induction l with
  | nil => rfl
  | cons b rest ih => simp [hexEncode] at ih ⊢; omega

set_option maxRecDepth 40000 in
lemma hexDigitChar_mod_mem : ∀ b : Fin 256,
    hexDigitChar (b.val / 16 % 16) ∈ hexAlphabet ∧ hexDigitChar (b.val % 16) ∈ hexAlphabet := by
  decide

lemma hexEncode_mem {l : List Nat} (h : ∀ b ∈ l, b < 256) :
    ∀ c ∈ hexEncode l, c ∈ hexAlphabet := by
  induction l with
  | nil => intro c hc; simp [hexEncode] at hc
  | cons b rest ih =>
    intro c hc
    simp only [hexEncode, List.flatMap_cons, List.mem_append] at hc
    rcases hc with hc | hc
    · have hb := hexDigitChar_mod_mem ⟨b, h b (List.mem_cons_self b rest)⟩
      simp at hc
      rcases hc with rfl | rfl
      · exact hb.1
      · exact hb.2
    · exact ih (fun x hx => h x (List.mem_cons_of_mem b hx)) c hc

/-- Claim C7: `HashMerger::merge`.  With the side-table rows strictly
ascending by id, each starting at a nonnegative id (as pass 1 assigns them
from 0), the merge succeeds and equals the specification: the k-th needing
node gains the digest of row k as its `sha1`, a needing node without a row
is written unhashed, and nodes that do not need a hash are unchanged.  Each
attached digest of a 20-byte hash is 40 lowercase hex characters.  And
whenever the peeked row's id is below the counter at a needing node, the
merge panics. -/
theorem hash_merge_correct (nodes : List SureNode) (rows : List HashInfo)
    (hsort : rows.Pairwise (fun a b => a.id < b.id))
    (hpos : ∀ r ∈ rows, 0 ≤ r.id)
    (hdig : ∀ r ∈ rows, r.hash.length = 20 ∧ ∀ b ∈ r.hash, b < 256) :
    hashMerge nodes rows = some (mergeSpec nodes rows 0) ∧
      (∀ r ∈ rows, (hexEncode r.hash).length = 40 ∧
        ∀ c ∈ hexEncode r.hash, c ∈ hexAlphabet) ∧
      (∀ (n : SureNode) (ns : List SureNode) (r : HashInfo) (rs : List HashInfo) (c : Int),
        n.needs_hash = true → r.id < c → mergeGo (n :: ns) (r :: rs) c = none) := by
  refine ⟨mergeGo_eq_spec nodes rows 0 hsort hpos, ?_, ?_⟩
  · intro r hr
    refine ⟨?_, hexEncode_mem (hdig r hr).2⟩
    rw [hexEncode_length, (hdig r hr).1]
  · intro n ns r rs c hn hlt
    simp only [mergeGo, hn, if_pos]
    rw [if_neg (by omega), if_neg (by omega)]

/-- Witness for C7: one needing file plus one non-file node, one row with a
20-byte digest. -/
theorem hash_merge_witness :
    hashMerge [.file "a" [("ino", "7"), ("kind", "file")], .sep]
        [⟨0, List.replicate 20 171⟩] =
      some [.file "a" (attsInsert "sha1" (String.mk (hexEncode (List.replicate 20 171)))
          [("ino", "7"), ("kind", "file")]), .sep] := by
  have h := (hash_merge_correct [.file "a" [("ino", "7"), ("kind", "file")], .sep]
    [⟨0, List.replicate 20 171⟩] (by simp) (by simp)
    (by intro r hr; simp at hr; subst hr; constructor <;> simp)).1
  rw [h]
  rfl

/-! ## Filesystem scanner — `src/src/node/fs.rs`

The filesystem is a tree of directories (attributes, device number,
entries); entries carry raw OS names (byte lists) and inode numbers.
`ScanIterator` keeps a deque of `AugNode`s; `push_dir` reads a directory,
sorts by inode, re-sorts by raw `file_name()` (both stable), partitions
into directories and files, and pushes `dirs…, Sep, files…, Leave` onto the
front of the deque.  Emitted names go through the escape codec. -/

mutual
inductive FsTree where
  | mk (atts : Atts) (dev : Nat) (entries : FsEntries)
inductive FsEntry where
  | dirE (name : List Nat) (ino : Nat) (t : FsTree)
  | fileE (name : List Nat) (ino : Nat) (atts : Atts)
inductive FsEntries where
  | nil
  | cons (e : FsEntry) (rest : FsEntries)
end

def FsTree.devOf : FsTree → Nat
  | .mk _ d _ => d

def FsTree.attsOf : FsTree → Atts
  | .mk a _ _ => a

def FsTree.entriesOf : FsTree → FsEntries
  | .mk _ _ es => es

def entriesToList : FsEntries → List FsEntry
  | .nil => []
  | .cons e r => e :: entriesToList r

def entryName : FsEntry → List Nat
  | .dirE n _ _ => n
  | .fileE n _ _ => n

def entryIno : FsEntry → Nat
  | .dirE _ i _ => i
  | .fileE _ i _ => i

def entryIsDir : FsEntry → Bool
  | .dirE _ _ _ => true
  | .fileE _ _ _ => false

/-- The deque items (`enum AugNode`): plain nodes, or a directory still to
be expanded (with its escaped name). -/
inductive AugNode where
  | normal (n : SureNode)
  | subd (t : FsTree) (name : String)

/-- How one directory entry enters the deque: subdirectories as `SubDir`
items, non-directories as `File` nodes, names escaped. -/
def augOf : FsEntry → AugNode
  | .dirE name _ t => .subd t (String.mk (escaped name))
  | .fileE name _ a => .normal (.file (String.mk (escaped name)) a)

/-- `entries.sort_by(ino)` then `files.sort_by(file_name)` — both stable. -/
def sortEntries (es : List FsEntry) : List FsEntry :=
  List.mergeSort (List.mergeSort es (fun a b => entryIno a ≤ entryIno b))
    (fun a b => bytesLe (entryName a) (entryName b))

/-- `ScanIterator::push_dir` (stat always succeeds in this model): the
items pushed onto the deque front for one directory, in deque order. -/
def pushDirList (es : FsEntries) : List AugNode :=
  let sorted := sortEntries (entriesToList es)
  let dirs := sorted.filter entryIsDir
  let files := sorted.filter (fun e => !entryIsDir e)
  dirs.map augOf ++ [.normal .sep] ++ files.map augOf ++ [.normal .leave]

/-- `ScanIterator::next` iterated to the end (fuel-bounded; each step pops
one deque item).  A `SubDir` whose device differs from the root device gets
`push_empty_dir` (just `Sep`, `Leave`). -/
def scanGo (rootDev : Nat) : Nat → List AugNode → Option (List SureNode)
  | _, [] => some []
  | 0, _ :: _ => none
  | fuel + 1, .normal n :: rest => (scanGo rootDev fuel rest).map (fun l => n :: l)
  | fuel + 1, .subd t name :: rest =>
    let items := if t.devOf = rootDev then pushDirList t.entriesOf
      else [.normal .sep, .normal .leave]
    (scanGo rootDev fuel (items ++ rest)).map (fun l => SureNode.enter name t.attsOf :: l)

/-- `scan_fs(root)`: the root (a directory) provides the root device and
enters the deque as `SubDir` named `__root__`. -/
def scanFs (t : FsTree) (fuel : Nat) : Option (List SureNode) :=
  scanGo t.devOf fuel [.subd t "__root__"]

unseal List.merge List.mergeSort in
/-- Claim C6, counterexample: a root directory holding two plain files
named (raw bytes) `0x20` (space) and `0x21` (`!`).  The scanner sorts by
raw name, so the space-named file comes first; its escaped name is `=20`,
which is lexicographically *greater* than `!` — the emitted File nodes are
not ascending by escaped name. -/
theorem scanner_escaped_order_violated :
    scanFs (.mk [] 0 (.cons (.fileE [0x20] 1 []) (.cons (.fileE [0x21] 2 []) .nil))) 10 =
      some [.enter "__root__" [], .sep, .file "=20" [], .file "!" [], .leave] ∧
      charsLt "=20".toList "!".toList = false ∧
      charsLt "!".toList "=20".toList = true := by
  refine ⟨by decide, by decide, by decide⟩

lemma bytesLt_irrefl : ∀ a, bytesLt a a = false := by
  intro a
  induction a with
  | nil => rfl
  | cons x xs ih => simp [bytesLt, ih]

lemma bytesLt_cons_unfold (x y : Nat) (xs ys : List Nat) :
    bytesLt (x :: xs) (y :: ys) =
      (if x < y then true else if y < x then false else bytesLt xs ys) := rfl

lemma bytesLt_trans : ∀ a b c, bytesLt a b = true → bytesLt b c = true → bytesLt a c = true := by
  intro a
  induction a with
  | nil =>
    intro b c hab hbc
    cases b with
    | nil => exact absurd hab (by decide)
    | cons y ys =>
      cases c with
      | nil => exact absurd hbc (by simp [bytesLt])
      | cons z zs => rfl
  | cons x xs ih =>
    intro b c hab hbc
    cases b with
    | nil => exact absurd hab (by simp [bytesLt])
    | cons y ys =>
      cases c with
      | nil => exact absurd hbc (by simp [bytesLt])
      | cons z zs =>
        rw [bytesLt_cons_unfold] at hab hbc ⊢
        rcases Nat.lt_trichotomy x y with hxy | hxy | hxy
        · rcases Nat.lt_trichotomy y z with hyz | hyz | hyz
          · rw [if_pos (by omega)]
          · rw [if_pos (by omega)]
          · rw [if_neg (by omega), if_pos hyz] at hbc
            exact absurd hbc (by decide)
        · rcases Nat.lt_trichotomy y z with hyz | hyz | hyz
          · rw [if_pos (by omega)]
          · rw [if_neg (by omega), if_neg (by omega)] at hab hbc
            rw [if_neg (by omega), if_neg (by omega)]
            exact ih ys zs hab hbc
          · rw [if_neg (by omega), if_pos hyz] at hbc
            exact absurd hbc (by decide)
        · rw [if_neg (by omega), if_pos hxy] at hab
          exact absurd hab (by decide)

lemma bytesLt_connex : ∀ a b, bytesLt a b = false → bytesLt b a = false → a = b := by
  intro a
  induction a with
  | nil =>
    intro b hab _
    cases b with
    | nil => rfl
    | cons y ys => exact absurd hab (by simp [bytesLt])
  | cons x xs ih =>
    intro b hab hba
    cases b with
    | nil => exact absurd hba (by simp [bytesLt])
    | cons y ys =>
      rw [bytesLt_cons_unfold] at hab hba
      rcases Nat.lt_trichotomy x y with hxy | hxy | hxy
      · rw [if_pos hxy] at hab
        exact absurd hab (by decide)
      · rw [if_neg (by omega), if_neg (by omega)] at hab hba
        rw [hxy, ih ys hab hba]
      · rw [if_pos hxy] at hba
        exact absurd hba (by decide)

lemma bytesLe_total : ∀ a b : List Nat, bytesLe a b = true ∨ bytesLe b a = true := by
  intro a b
  by_cases h : bytesLt b a = true
  · right
    unfold bytesLe
    by_cases h2 : bytesLt a b = true
    · have := bytesLt_trans a b a h2 h
      rw [bytesLt_irrefl] at this
      exact absurd this (by decide)
    · simp at h2
      simp [h2]
  · left
    simp at h
    simp [bytesLe, h]

lemma bytesLe_trans : ∀ a b c : List Nat,
    bytesLe a b = true → bytesLe b c = true → bytesLe a c = true := by
  intro a b c hab hbc
  unfold bytesLe at hab hbc ⊢
  simp only [Bool.not_eq_true'] at hab hbc ⊢
  by_cases h : bytesLt c a = true
  · exfalso
    by_cases h1 : bytesLt a b = true
    · have h2 := bytesLt_trans c a b h h1
      rw [h2] at hbc
      cases hbc
    · have h1f : bytesLt a b = false := by simpa using h1
      have hiseq : a = b := bytesLt_connex a b h1f hab
      subst hiseq
      rw [h] at hbc
      cases hbc
  · simpa using h

lemma bytesLe_strict {a b : List Nat} (hle : bytesLe a b = true) (hne : a ≠ b) :
    bytesLt a b = true := by
  by_cases h : bytesLt a b = true
  · exact h
  · simp at h
    simp [bytesLe] at hle
    exact absurd (bytesLt_connex a b h hle) hne

/-- Claim C6, amended: within each directory the scanner emits the child
directories and the files as two runs, each strictly ascending by *raw*
name (byte order) — not by escaped name; together they are exactly the
directory's entries. -/
theorem scan_dir_order (es : FsEntries)
    (hnodup : ((entriesToList es).map entryName).Nodup) :
    ∃ dirs files : List FsEntry,
      pushDirList es =
        dirs.map augOf ++ [.normal .sep] ++ files.map augOf ++ [.normal .leave] ∧
      (dirs.map entryName).Pairwise (fun a b => bytesLt a b = true) ∧
      (files.map entryName).Pairwise (fun a b => bytesLt a b = true) ∧
      (∀ e ∈ dirs, entryIsDir e = true) ∧
      (∀ e ∈ files, entryIsDir e = false) ∧
      (dirs ++ files).Perm (entriesToList es) := by
  classical
  set l0 := entriesToList es with hl0
  set sorted := sortEntries l0 with hsortedDef
  have hperm : sorted.Perm l0 :=
    (List.mergeSort_perm _ _).trans (List.mergeSort_perm _ _)
  have hsort : sorted.Pairwise (fun a b => bytesLe (entryName a) (entryName b) = true) := by
    have := @List.sorted_mergeSort FsEntry
      (fun a b : FsEntry => bytesLe (entryName a) (entryName b))
      (fun a b c hab hbc => bytesLe_trans _ _ _ hab hbc)
      (fun a b => by
        rcases bytesLe_total (entryName a) (entryName b) with h | h <;> simp [h])
      (List.mergeSort l0 (fun a b => entryIno a ≤ entryIno b))
    exact this
  have hnodup2 : (sorted.map entryName).Nodup :=
    (hperm.map entryName).nodup_iff.mpr hnodup
  have hne : sorted.Pairwise (fun a b => entryName a ≠ entryName b) :=
    List.pairwise_map.mp hnodup2
  have hstrict : sorted.Pairwise (fun a b => bytesLt (entryName a) (entryName b) = true) :=
    (hsort.and hne).imp (fun h => bytesLe_strict h.1 h.2)
  refine ⟨sorted.filter entryIsDir, sorted.filter (fun e => !entryIsDir e),
    rfl, ?_, ?_, ?_, ?_, ?_⟩
  · exact List.pairwise_map.mpr (hstrict.filter _)
  · exact List.pairwise_map.mpr (hstrict.filter _)
  · intro e he; exact (List.mem_filter.mp he).2
  · intro e he; simpa using (List.mem_filter.mp he).2
  · exact (List.filter_append_perm _ _).trans hperm

/-- Witness for the amended C6 at a concrete directory: one file and one
subdirectory. -/
theorem scan_dir_order_witness :
    ((entriesToList (FsEntries.cons (.fileE [0x20] 1 [])
        (.cons (.dirE [0x41] 2 (.mk [] 0 .nil)) .nil))).map entryName).Nodup ∧
      (∃ dirs files : List FsEntry,
        pushDirList (FsEntries.cons (.fileE [0x20] 1 [])
            (.cons (.dirE [0x41] 2 (.mk [] 0 .nil)) .nil)) =
          dirs.map augOf ++ [.normal .sep] ++ files.map augOf ++ [.normal .leave] ∧
        (dirs.map entryName).Pairwise (fun a b => bytesLt a b = true) ∧
        (files.map entryName).Pairwise (fun a b => bytesLt a b = true) ∧
        (∀ e ∈ dirs, entryIsDir e = true) ∧
        (∀ e ∈ files, entryIsDir e = false) ∧
        (dirs ++ files).Perm (entriesToList (FsEntries.cons (.fileE [0x20] 1 [])
          (.cons (.dirE [0x41] 2 (.mk [] 0 .nil)) .nil)))) :=
  ⟨by decide, scan_dir_order _ (by decide)⟩

/-! ## Hash combiner — `HashCombiner` in `src/src/node/hashes.rs`

The combiner walks an old (left) and a new (right) node stream with one
look-ahead node per side and a stack of per-directory states
(`SameDirs`/`SameFiles`/`LeftDirs`/`RightDirs`).  `next()` pops the top
state, dispatches to the matching visit function, and loops until a node is
produced; `next_left`/`next_right` advance a side, substituting `Leave` at
end of input.  Rust `String` comparison is byte order, modelled by
`strLt` (UTF-8 byte order coincides with scalar-value order).
`Option.none` in `maybe_copy_sha` models the `unwrap`/index panics. -/

inductive CombErr where
  | emptyLeftIterator
  | emptyRightIterator
  | unexpectedLeftNode
  | unexpectedRightNode
  | incorrectName
  | panicked
deriving DecidableEq, Repr

inductive CState where
  | leftDirs
  | rightDirs
  | sameDirs
  | sameFiles
deriving DecidableEq, Repr

structure CombSt where
  left : SureNode
  right : SureNode
  leftRest : List SureNode
  rightRest : List SureNode
  stack : List CState
  seenRoot : Bool
deriving DecidableEq, Repr

/-- `fn next_left`: advance the left side, keeping `Leave` at end of
input, and return the node that was current. -/
def nextL (st : CombSt) : SureNode × CombSt :=
  match st.leftRest with
  | [] => (st.left, { st with left := .leave })
  | n :: rest => (st.left, { st with left := n, leftRest := rest })

/-- `fn next_right`. -/
def nextR (st : CombSt) : SureNode × CombSt :=
  match st.rightRest with
  | [] => (st.right, { st with right := .leave })
  | n :: rest => (st.right, { st with right := n, rightRest := rest })

/-- Replace the attribute map of an `Enter`/`File` node. -/
def withAtts : SureNode → Atts → SureNode
  | .file n _, a => .file n a
  | .enter n _, a => .enter n a
  | x, _ => x

/-- `fn maybe_copy_sha(left, right)`: do nothing if the right already has a
`sha1`; require both `kind`s to be `file` (indexing panics when `kind` is
absent, with `latts["kind"] != "file"` short-circuiting before
`ratts["kind"]`); require `ino` and `ctime` to compare equal as options;
then copy the left `sha1` if there is one. -/
def maybe_copy_sha (l r : SureNode) : Option SureNode :=
  match l.atts?, r.atts? with
  | some latts, some ratts =>
    if attsContains ratts "sha1" then some r
    else
      match attsGet latts "kind" with
      | none => none
      | some lk =>
        if lk ≠ "file" then some r
        else
          match attsGet ratts "kind" with
          | none => none
          | some rk =>
            if rk ≠ "file" then some r
            else if attsGet latts "ino" ≠ attsGet ratts "ino" ∨
                attsGet latts "ctime" ≠ attsGet ratts "ctime" then some r
            else
              match attsGet latts "sha1" with
              | none => some r
              | some v => some (withAtts r (attsInsert "sha1" v ratts))
  | _, _ => none

/-- Result of one visit call. -/
inductive VisitRes where
  | cont (st : CombSt)
  | node (n : SureNode) (st : CombSt)
  | err (e : CombErr)
  | done
deriving Repr

/-- `fn visit_root` (the stack was empty). -/
def visitRoot (st : CombSt) : VisitRes :=
  if ¬st.left.is_enter then .err .unexpectedLeftNode
  else if ¬st.right.is_enter then .err .unexpectedRightNode
  else
    match st.left.name?, st.right.name? with
    | some ln, some rn =>
      if ln ≠ "__root__" then .err .incorrectName
      else if rn ≠ "__root__" then .err .incorrectName
      else
        let st1 := (nextL st).2
        let p := nextR st1
        .node p.1 { p.2 with stack := [CState.sameDirs], seenRoot := true }
    | _, _ => .err .panicked

/-- `fn visit_samedir` (top of stack already popped into `k`). -/
def visitSamedir (st : CombSt) : VisitRes :=
  match st.left.is_sep, st.right.is_sep with
  | true, true =>
    let st1 := (nextL st).2
    let p := nextR st1
    .node p.1 { p.2 with stack := CState.sameFiles :: st.stack }
  | false, false =>
    match st.left.name?, st.right.name? with
    | some ln, some rn =>
      if ln = rn then
        let st0 := { st with stack := CState.sameDirs :: CState.sameDirs :: st.stack }
        let st1 := (nextL st0).2
        let p := nextR st1
        .node p.1 p.2
      else if strLt ln rn then
        let st1 := (nextL st).2
        .cont { st1 with stack := CState.leftDirs :: CState.sameDirs :: st.stack }
      else
        let st0 := { st with stack := CState.rightDirs :: CState.sameDirs :: st.stack }
        let p := nextR st0
        .node p.1 p.2
    | _, _ => .err .panicked
  | false, true =>
    let st1 := (nextL st).2
    .cont { st1 with stack := CState.leftDirs :: CState.sameDirs :: st.stack }
  | true, false =>
    let st0 := { st with stack := CState.rightDirs :: CState.sameDirs :: st.stack }
    let p := nextR st0
    .node p.1 p.2

/-- `fn visit_samefiles` (top of stack already popped into `k`). -/
def visitSamefiles (st : CombSt) : VisitRes :=
  match st.left.is_leave, st.right.is_leave with
  | true, true =>
    let st1 := (nextL st).2
    let p := nextR st1
    .node p.1 p.2
  | true, false =>
    let st0 := { st with stack := CState.sameFiles :: st.stack }
    let p := nextR st0
    .node p.1 p.2
  | false, true =>
    let st1 := (nextL st).2
    .cont { st1 with stack := CState.sameFiles :: st.stack }
  | false, false =>
    let st0 := { st with stack := CState.sameFiles :: st.stack }
    match st0.left.name?, st0.right.name? with
    | some ln, some rn =>
      if ln = rn then
        let q := nextL st0
        let p := nextR q.2
        match maybe_copy_sha q.1 p.1 with
        | none => .err .panicked
        | some r' => .node r' p.2
      else if strLt ln rn then
        .cont (nextL st0).2
      else
        let p := nextR st0
        .node p.1 p.2
    | _, _ => .err .panicked

/-- `fn visit_rightdirs` (top of stack already popped into `k`). -/
def visitRightdirs (st : CombSt) : VisitRes :=
  let st0 :=
    if st.right.is_sep then { st with stack := CState.rightDirs :: st.stack }
    else if st.right.is_enter then
      { st with stack := CState.rightDirs :: CState.rightDirs :: st.stack }
    else if st.right.is_leave then st
    else { st with stack := CState.rightDirs :: st.stack }
  let p := nextR st0
  .node p.1 p.2

/-- `fn visit_leftdirs` (top of stack already popped into `k`). -/
def visitLeftdirs (st : CombSt) : VisitRes :=
  let st0 :=
    if st.left.is_sep then { st with stack := CState.leftDirs :: st.stack }
    else if st.left.is_enter then
      { st with stack := CState.leftDirs :: CState.leftDirs :: st.stack }
    else if st.left.is_leave then st
    else { st with stack := CState.leftDirs :: st.stack }
  .cont (nextL st0).2

/-- One iteration of the loop in `HashCombiner::next`: check for
completion, pop the top state, dispatch. -/
def combStep (st : CombSt) : VisitRes :=
  if st.seenRoot ∧ st.stack = [] then .done
  else
    match st.stack with
    | [] => visitRoot st
    | s :: rest =>
      let st' := { st with stack := rest }
      match s with
      | .sameDirs => visitSamedir st'
      | .sameFiles => visitSamefiles st'
      | .rightDirs => visitRightdirs st'
      | .leftDirs => visitLeftdirs st'

/-- The combiner iterator, drained to a list (fuel-bounded; the loop can
diverge on ill-formed inputs, e.g. a truncated left stream). -/
def combRun : Nat → CombSt → Option (Except CombErr (List SureNode))
  | 0, _ => none
  | fuel + 1, st =>
    match combStep st with
    | .done => some (.ok [])
    | .err e => some (.error e)
    | .cont st' => combRun fuel st'
    | .node n st' => (combRun fuel st').map (Except.map (fun l => n :: l))

/-- `HashCombiner::new`: prime both look-ahead slots. -/
def combInit (ls rs : List SureNode) : Except CombErr CombSt :=
  match ls with
  | [] => .error .emptyLeftIterator
  | l :: lrest =>
    match rs with
    | [] => .error .emptyRightIterator
    | r :: rrest => .ok ⟨l, r, lrest, rrest, [], false⟩

def combine (ls rs : List SureNode) (fuel : Nat) : Option (Except CombErr (List SureNode)) :=
  match combInit ls rs with
  | .error e => some (.error e)
  | .ok st => combRun fuel st

/-- Claim C2, counterexample: left and right hold the same single file
`x` with `kind=file` and *no* `ino` or `ctime` attribute at all; the right
has no `sha1`, the left has one.  The claim requires `ino` and `ctime` to
be *present* (and equal) for the copy, so it predicts no copy here — but
the code compares `latts.get("ino") != ratts.get("ino")` where
`None == None`, so the `sha1` is copied. -/
theorem combiner_copies_without_ino :
    combine
        [.enter "__root__" [], .sep, .file "x" [("kind", "file"), ("sha1", "ab")], .leave]
        [.enter "__root__" [], .sep, .file "x" [("kind", "file")], .leave] 20 =
      some (.ok [.enter "__root__" [], .sep,
        .file "x" [("kind", "file"), ("sha1", "ab")], .leave]) ∧
      attsGet [("kind", "file")] "ino" = none ∧
      attsGet [("kind", "file")] "ctime" = none ∧
      attsGet [("kind", "file"), ("sha1", "ab")] "sha1" = some "ab" := by
  refine ⟨by decide, by decide, by decide, by decide⟩

/-! ### Well-formed streams as trees

A well-formed node stream is the flattening of a tree: `Enter`, the child
directories (each a flattened subtree), `Sep`, the files, `Leave`, with
both name lists strictly ascending and every file carrying a `kind`.  The
combiner's effect is specified by `mergeT`: the right tree with each
file's attributes run through `copySha` against the same-named left file
of the same directory. -/

mutual
inductive STree where
  | mk (atts : Atts) (dirs : SDirs) (files : List (String × Atts))
inductive SDirs where
  | nil
  | cons (name : String) (t : STree) (rest : SDirs)
end

def STree.attsOf : STree → Atts
  | .mk a _ _ => a

def STree.dirsOf : STree → SDirs
  | .mk _ d _ => d

def STree.filesOf : STree → List (String × Atts)
  | .mk _ _ f => f

def filesN (fs : List (String × Atts)) : List SureNode :=
  fs.map (fun p => SureNode.file p.1 p.2)

mutual
def flattenT (name : String) : STree → List SureNode
  | .mk atts dirs files =>
    .enter name atts :: (flattenD dirs ++ .sep :: (filesN files ++ [.leave]))
def flattenD : SDirs → List SureNode
  | .nil => []
  | .cons n t rest => flattenT n t ++ flattenD rest
end

def innerOf : STree → List SureNode
  | .mk _ dirs files => flattenD dirs ++ .sep :: (filesN files ++ [.leave])

lemma flattenT_eq (name : String) (t : STree) :
    flattenT name t = .enter name t.attsOf :: innerOf t := by
  cases t; rfl

/-- The spec-side copy condition (the amended claim): the right has no
`sha1`, both kinds are `file`, `ino` and `ctime` agree *as options*, and
the left has a `sha1` to give. -/
def copySha (latts ratts : Atts) : Atts :=
  if attsContains ratts "sha1" then ratts
  else if attsGet latts "kind" = some "file" ∧ attsGet ratts "kind" = some "file" ∧
      attsGet latts "ino" = attsGet ratts "ino" ∧
      attsGet latts "ctime" = attsGet ratts "ctime" then
    match attsGet latts "sha1" with
    | some v => attsInsert "sha1" v ratts
    | none => ratts
  else ratts

def lookupD (n : String) : SDirs → Option STree
  | .nil => none
  | .cons m t rest => if m = n then some t else lookupD n rest

def lookupF (n : String) (fs : List (String × Atts)) : Option Atts :=
  (fs.find? (fun p => p.1 = n)).map (fun p => p.2)

/-- The right file list with hashes carried over from the same-named left
files. -/
def mapFiles (lf rf : List (String × Atts)) : List (String × Atts) :=
  rf.map (fun p =>
    match lookupF p.1 lf with
    | some latts => (p.1, copySha latts p.2)
    | none => p)

mutual
def mergeT : STree → STree → STree
  | .mk _ ldirs lfiles, .mk ratts rdirs rfiles =>
    .mk ratts (mergeD ldirs rdirs) (mapFiles lfiles rfiles)
def mergeD (ld : SDirs) : SDirs → SDirs
  | .nil => .nil
  | .cons n t rest =>
    .cons n
      (match lookupD n ld with
        | some lt => mergeT lt t
        | none => t)
      (mergeD ld rest)
end

def dirNames : SDirs → List String
  | .nil => []
  | .cons n _ rest => n :: dirNames rest

def pairwiseStrLt : List String → Bool
  | [] => true
  | a :: rest => rest.all (fun b => strLt a b) && pairwiseStrLt rest

mutual
def wfT : STree → Bool
  | .mk _ dirs files =>
    wfD dirs && pairwiseStrLt (dirNames dirs) && pairwiseStrLt (files.map Prod.fst) &&
      files.all (fun p => (attsGet p.2 "kind").isSome)
def wfD : SDirs → Bool
  | .nil => true
  | .cons _ t rest => wfT t && wfD rest
end

/-! ### Small-step runs of the combiner -/

/-- The stream position `(current, rest)` denoted by a suffix list; an
exhausted stream shows `Leave`, matching `next_left`/`next_right`. -/
def atStream : List SureNode → SureNode × List SureNode
  | [] => (.leave, [])
  | n :: rest => (n, rest)

/-- The combiner state whose two streams sit at the given suffixes. -/
def stOf (ls rs : List SureNode) (stk : List CState) (sr : Bool) : CombSt :=
  ⟨(atStream ls).1, (atStream rs).1, (atStream ls).2, (atStream rs).2, stk, sr⟩

lemma nextL_stOf (ls rs : List SureNode) (stk : List CState) (sr : Bool) :
    nextL (stOf ls rs stk sr) = ((atStream ls).1, stOf ls.tail rs stk sr) := by
  cases ls with
  | nil => rfl
  | cons h t => cases t <;> rfl

lemma nextR_stOf (ls rs : List SureNode) (stk : List CState) (sr : Bool) :
    nextR (stOf ls rs stk sr) = ((atStream rs).1, stOf ls rs.tail stk sr) := by
  cases rs with
  | nil => rfl
  | cons h t => cases t <;> rfl

/-- `Steps st out st'`: from `st` the combiner loop can take finitely many
visit steps, emitting `out`, reaching `st'`. -/
inductive Steps : CombSt → List SureNode → CombSt → Prop where
  | refl (st : CombSt) : Steps st [] st
  | emit {st : CombSt} {n : SureNode} {st1 : CombSt} {out : List SureNode} {st2 : CombSt} :
      combStep st = .node n st1 → Steps st1 out st2 → Steps st (n :: out) st2
  | skip {st st1 : CombSt} {out : List SureNode} {st2 : CombSt} :
      combStep st = .cont st1 → Steps st1 out st2 → Steps st out st2

theorem Steps.trans {a : CombSt} {o1 : List SureNode} {b : CombSt} {o2 : List SureNode}
    {c : CombSt} (h1 : Steps a o1 b) (h2 : Steps b o2 c) : Steps a (o1 ++ o2) c := by
  induction h1 with
  | refl => simpa using h2
  | emit hstep _ ih => exact .emit hstep (ih h2)
  | skip hstep _ ih => exact .skip hstep (ih h2)

/-- A completed `Steps` run determines the iterator's total output: with
enough fuel, `combRun` returns exactly it. -/
theorem combRun_of_steps {st : CombSt} {out : List SureNode} {fin : CombSt}
    (h : Steps st out fin) (hdone : combStep fin = .done) :
    ∃ n, ∀ fuel, n ≤ fuel → combRun fuel st = some (.ok out) := by
  induction h with
  | refl st =>
    exact ⟨1, fun fuel hf => by
      match fuel, hf with
      | f + 1, _ => simp [combRun, hdone]⟩
  | emit hstep _ ih =>
    obtain ⟨n, hn⟩ := ih hdone
    exact ⟨n + 1, fun fuel hf => by
      match fuel, hf with
      | f + 1, hf =>
        simp only [combRun, hstep]
        rw [hn f (by omega)]
        rfl⟩
  | skip hstep _ ih =>
    obtain ⟨n, hn⟩ := ih hdone
    exact ⟨n + 1, fun fuel hf => by
      match fuel, hf with
      | f + 1, hf =>
        simp only [combRun, hstep]
        exact hn f (by omega)⟩

/-! ### One visit step per configuration

Step lemmas for `combStep` at each state/head combination reached after
the root (so `seenRoot = true`). -/

lemma strLt_irrefl (a : String) : strLt a a = false := by
  simp [strLt, charsLt, bytesLt_irrefl]

lemma strLt_asymm {a b : String} (h : strLt a b = true) : strLt b a = false := by
  by_cases h2 : strLt b a = true
  · have := bytesLt_trans _ _ _ (by simpa [strLt, charsLt] using h)
      (by simpa [strLt, charsLt] using h2)
    rw [bytesLt_irrefl] at this
    exact absurd this (by decide)
  · simpa using h2

lemma strLt_ne {a b : String} (h : strLt a b = true) : a ≠ b := by
  intro he
  subst he
  rw [strLt_irrefl] at h
  exact absurd h (by decide)

lemma strLt_trans {a b c : String} (h1 : strLt a b = true) (h2 : strLt b c = true) :
    strLt a c = true :=
  bytesLt_trans _ _ _ (by simpa [strLt, charsLt] using h1)
    (by simpa [strLt, charsLt] using h2)

section StepLemmas

variable {k : List CState} {lt rt ls rs : List SureNode}

lemma step_ld_enter (n : String) (a : Atts) :
    combStep (stOf (.enter n a :: lt) rs (CState.leftDirs :: k) true) =
      .cont (stOf lt rs (CState.leftDirs :: CState.leftDirs :: k) true) := by
  cases lt <;>
    simp [combStep, stOf, atStream, visitLeftdirs, nextL, SureNode.is_sep,
      SureNode.is_enter, SureNode.is_leave]

lemma step_ld_sep :
    combStep (stOf (.sep :: lt) rs (CState.leftDirs :: k) true) =
      .cont (stOf lt rs (CState.leftDirs :: k) true) := by
  cases lt <;>
    simp [combStep, stOf, atStream, visitLeftdirs, nextL, SureNode.is_sep,
      SureNode.is_enter, SureNode.is_leave]

lemma step_ld_leave :
    combStep (stOf (.leave :: lt) rs (CState.leftDirs :: k) true) =
      .cont (stOf lt rs k true) := by
  cases lt <;>
    simp [combStep, stOf, atStream, visitLeftdirs, nextL, SureNode.is_sep,
      SureNode.is_enter, SureNode.is_leave]

lemma step_ld_file (n : String) (a : Atts) :
    combStep (stOf (.file n a :: lt) rs (CState.leftDirs :: k) true) =
      .cont (stOf lt rs (CState.leftDirs :: k) true) := by
  cases lt <;>
    simp [combStep, stOf, atStream, visitLeftdirs, nextL, SureNode.is_sep,
      SureNode.is_enter, SureNode.is_leave]

lemma step_rd_enter (n : String) (a : Atts) :
    combStep (stOf ls (.enter n a :: rt) (CState.rightDirs :: k) true) =
      .node (.enter n a) (stOf ls rt (CState.rightDirs :: CState.rightDirs :: k) true) := by
  cases rt <;>
    simp [combStep, stOf, atStream, visitRightdirs, nextR, SureNode.is_sep,
      SureNode.is_enter, SureNode.is_leave]

lemma step_rd_sep :
    combStep (stOf ls (.sep :: rt) (CState.rightDirs :: k) true) =
      .node .sep (stOf ls rt (CState.rightDirs :: k) true) := by
  cases rt <;>
    simp [combStep, stOf, atStream, visitRightdirs, nextR, SureNode.is_sep,
      SureNode.is_enter, SureNode.is_leave]

lemma step_rd_leave :
    combStep (stOf ls (.leave :: rt) (CState.rightDirs :: k) true) =
      .node .leave (stOf ls rt k true) := by
  cases rt <;>
    simp [combStep, stOf, atStream, visitRightdirs, nextR, SureNode.is_sep,
      SureNode.is_enter, SureNode.is_leave]

lemma step_rd_file (n : String) (a : Atts) :
    combStep (stOf ls (.file n a :: rt) (CState.rightDirs :: k) true) =
      .node (.file n a) (stOf ls rt (CState.rightDirs :: k) true) := by
  cases rt <;>
    simp [combStep, stOf, atStream, visitRightdirs, nextR, SureNode.is_sep,
      SureNode.is_enter, SureNode.is_leave]

lemma step_sd_sepsep :
    combStep (stOf (.sep :: lt) (.sep :: rt) (CState.sameDirs :: k) true) =
      .node .sep (stOf lt rt (CState.sameFiles :: k) true) := by
  cases lt <;> cases rt <;>
    simp [combStep, stOf, atStream, visitSamedir, nextL, nextR, SureNode.is_sep]

lemma step_sd_eq (n : String) (a1 a2 : Atts) :
    combStep (stOf (.enter n a1 :: lt) (.enter n a2 :: rt) (CState.sameDirs :: k) true) =
      .node (.enter n a2)
        (stOf lt rt (CState.sameDirs :: CState.sameDirs :: k) true) := by
  cases lt <;> cases rt <;>
    simp [combStep, stOf, atStream, visitSamedir, nextL, nextR, SureNode.is_sep,
      SureNode.name?]

lemma step_sd_lt {n1 n2 : String} (h : strLt n1 n2 = true) (a1 a2 : Atts) :
    combStep (stOf (.enter n1 a1 :: lt) (.enter n2 a2 :: rt) (CState.sameDirs :: k) true) =
      .cont (stOf lt (.enter n2 a2 :: rt) (CState.leftDirs :: CState.sameDirs :: k) true) := by
  cases lt <;> cases rt <;>
    simp [combStep, stOf, atStream, visitSamedir, nextL, nextR, SureNode.is_sep,
      SureNode.name?, strLt_ne h, h]

lemma step_sd_gt {n1 n2 : String} (h : strLt n2 n1 = true) (a1 a2 : Atts) :
    combStep (stOf (.enter n1 a1 :: lt) (.enter n2 a2 :: rt) (CState.sameDirs :: k) true) =
      .node (.enter n2 a2)
        (stOf (.enter n1 a1 :: lt) rt (CState.rightDirs :: CState.sameDirs :: k) true) := by
  cases lt <;> cases rt <;>
    simp [combStep, stOf, atStream, visitSamedir, nextL, nextR, SureNode.is_sep,
      SureNode.name?, (strLt_ne h).symm, strLt_asymm h]

lemma step_sd_leftextra (n : String) (a : Atts) :
    combStep (stOf (.enter n a :: lt) (.sep :: rt) (CState.sameDirs :: k) true) =
      .cont (stOf lt (.sep :: rt) (CState.leftDirs :: CState.sameDirs :: k) true) := by
  cases lt <;> cases rt <;>
    simp [combStep, stOf, atStream, visitSamedir, nextL, nextR, SureNode.is_sep]

lemma step_sd_rightextra (n : String) (a : Atts) :
    combStep (stOf (.sep :: lt) (.enter n a :: rt) (CState.sameDirs :: k) true) =
      .node (.enter n a)
        (stOf (.sep :: lt) rt (CState.rightDirs :: CState.sameDirs :: k) true) := by
  cases lt <;> cases rt <;>
    simp [combStep, stOf, atStream, visitSamedir, nextL, nextR, SureNode.is_sep]

lemma step_sf_leaveleave :
    combStep (stOf (.leave :: lt) (.leave :: rt) (CState.sameFiles :: k) true) =
      .node .leave (stOf lt rt k true) := by
  cases lt <;> cases rt <;>
    simp [combStep, stOf, atStream, visitSamefiles, nextL, nextR, SureNode.is_leave]

lemma step_sf_rightextra (n : String) (a : Atts) :
    combStep (stOf (.leave :: lt) (.file n a :: rt) (CState.sameFiles :: k) true) =
      .node (.file n a) (stOf (.leave :: lt) rt (CState.sameFiles :: k) true) := by
  cases lt <;> cases rt <;>
    simp [combStep, stOf, atStream, visitSamefiles, nextL, nextR, SureNode.is_leave]

lemma step_sf_leftextra (n : String) (a : Atts) :
    combStep (stOf (.file n a :: lt) (.leave :: rt) (CState.sameFiles :: k) true) =
      .cont (stOf lt (.leave :: rt) (CState.sameFiles :: k) true) := by
  cases lt <;> cases rt <;>
    simp [combStep, stOf, atStream, visitSamefiles, nextL, nextR, SureNode.is_leave]

lemma step_sf_eq {n : String} {a1 a2 : Atts} {r' : SureNode}
    (hm : maybe_copy_sha (.file n a1) (.file n a2) = some r') :
    combStep (stOf (.file n a1 :: lt) (.file n a2 :: rt) (CState.sameFiles :: k) true) =
      .node r' (stOf lt rt (CState.sameFiles :: k) true) := by
  cases lt <;> cases rt <;>
    simp [combStep, stOf, atStream, visitSamefiles, nextL, nextR, SureNode.is_leave,
      SureNode.name?, hm]

lemma step_sf_lt {n1 n2 : String} (h : strLt n1 n2 = true) (a1 a2 : Atts) :
    combStep (stOf (.file n1 a1 :: lt) (.file n2 a2 :: rt) (CState.sameFiles :: k) true) =
      .cont (stOf lt (.file n2 a2 :: rt) (CState.sameFiles :: k) true) := by
  cases lt <;> cases rt <;>
    simp [combStep, stOf, atStream, visitSamefiles, nextL, nextR, SureNode.is_leave,
      SureNode.name?, strLt_ne h, h]

lemma step_sf_gt {n1 n2 : String} (h : strLt n2 n1 = true) (a1 a2 : Atts) :
    combStep (stOf (.file n1 a1 :: lt) (.file n2 a2 :: rt) (CState.sameFiles :: k) true) =
      .node (.file n2 a2)
        (stOf (.file n1 a1 :: lt) rt (CState.sameFiles :: k) true) := by
  cases lt <;> cases rt <;>
    simp [combStep, stOf, atStream, visitSamefiles, nextL, nextR, SureNode.is_leave,
      SureNode.name?, (strLt_ne h).symm, strLt_asymm h]

lemma step_root (a1 a2 : Atts) :
    combStep (stOf (.enter "__root__" a1 :: lt) (.enter "__root__" a2 :: rt) [] false) =
      .node (.enter "__root__" a2) (stOf lt rt [CState.sameDirs] true) := by
  cases lt <;> cases rt <;>
    simp [combStep, stOf, atStream, visitRoot, nextL, nextR, SureNode.is_enter,
      SureNode.name?]

end StepLemmas

/-! ### Skimming a left subtree, copying a right subtree -/

theorem ldSteps_files (fs : List (String × Atts)) (k : List CState) (ls rs : List SureNode) :
    Steps (stOf (filesN fs ++ ls) rs (CState.leftDirs :: k) true) []
      (stOf ls rs (CState.leftDirs :: k) true) := by
  induction fs with
  | nil => exact Steps.refl _
  | cons p rest ih =>
    exact Steps.skip (step_ld_file p.1 p.2) ih

mutual
theorem ldSteps_inner (d : SDirs) (fs : List (String × Atts)) (k : List CState)
    (ls rs : List SureNode) :
    Steps (stOf (flattenD d ++ .sep :: (filesN fs ++ .leave :: ls)) rs
        (CState.leftDirs :: k) true) []
      (stOf ls rs k true) := by
  cases d with
  | nil =>
    refine Steps.skip step_ld_sep ?_
    refine Steps.trans (ldSteps_files fs k (.leave :: ls) rs) ?_
    exact Steps.skip step_ld_leave (Steps.refl _)
  | cons n t rest =>
    have h1 := ldSteps_child n t (k) (flattenD rest ++ .sep :: (filesN fs ++ .leave :: ls)) rs
    have h2 := ldSteps_inner rest fs k ls rs
    have := Steps.trans h1 h2
    simpa [flattenD, List.append_assoc] using this
termination_by sizeOf d + sizeOf fs

theorem ldSteps_child (name : String) (t : STree) (k : List CState) (ls rs : List SureNode) :
    Steps (stOf (flattenT name t ++ ls) rs (CState.leftDirs :: k) true) []
      (stOf ls rs (CState.leftDirs :: k) true) := by
  cases t with
  | mk atts dirs files =>
    have h0 : flattenT name (.mk atts dirs files) ++ ls =
        .enter name atts :: (flattenD dirs ++ .sep :: (filesN files ++ .leave :: ls)) := by
      simp [flattenT, List.append_assoc]
    rw [h0]
    refine Steps.skip (step_ld_enter name atts) ?_
    exact ldSteps_inner dirs files (CState.leftDirs :: k) ls rs
termination_by sizeOf t
end

theorem rdSteps_files (fs : List (String × Atts)) (k : List CState) (ls rs : List SureNode) :
    Steps (stOf ls (filesN fs ++ rs) (CState.rightDirs :: k) true) (filesN fs)
      (stOf ls rs (CState.rightDirs :: k) true) := by
  induction fs with
  | nil => exact Steps.refl _
  | cons p rest ih =>
    exact Steps.emit (step_rd_file p.1 p.2) ih

mutual
theorem rdSteps_inner (d : SDirs) (fs : List (String × Atts)) (k : List CState)
    (ls rs : List SureNode) :
    Steps (stOf ls (flattenD d ++ .sep :: (filesN fs ++ .leave :: rs))
        (CState.rightDirs :: k) true)
      (flattenD d ++ .sep :: (filesN fs ++ [.leave]))
      (stOf ls rs k true) := by
  cases d with
  | nil =>
    have h1 := rdSteps_files fs k ls (.leave :: rs)
    have h2 : Steps (stOf ls (.leave :: rs) (CState.rightDirs :: k) true) [.leave]
        (stOf ls rs k true) :=
      Steps.emit step_rd_leave (Steps.refl _)
    have := Steps.emit step_rd_sep (Steps.trans h1 h2)
    simpa [flattenD] using this
  | cons n t rest =>
    have h1 := rdSteps_child n t k ls (flattenD rest ++ .sep :: (filesN fs ++ .leave :: rs))
    have h2 := rdSteps_inner rest fs k ls rs
    have := Steps.trans h1 h2
    simpa [flattenD, List.append_assoc] using this
termination_by sizeOf d + sizeOf fs

theorem rdSteps_child (name : String) (t : STree) (k : List CState) (ls rs : List SureNode) :
    Steps (stOf ls (flattenT name t ++ rs) (CState.rightDirs :: k) true) (flattenT name t)
      (stOf ls rs (CState.rightDirs :: k) true) := by
  cases t with
  | mk atts dirs files =>
    have h0 : flattenT name (.mk atts dirs files) ++ rs =
        .enter name atts :: (flattenD dirs ++ .sep :: (filesN files ++ .leave :: rs)) := by
      simp [flattenT, List.append_assoc]
    rw [h0]
    have h1 := rdSteps_inner dirs files (CState.rightDirs :: k) ls rs
    have := Steps.emit (step_rd_enter name atts) h1
    simpa [flattenT, List.append_assoc] using this
termination_by sizeOf t
end

/-! ### Lookup and ordering helpers for the merge -/

lemma strLt_connex {a b : String} (h1 : strLt a b = false) (h2 : strLt b a = false) :
    a = b := by
  have hc := bytesLt_connex _ _ (by simpa [strLt, charsLt] using h1)
    (by simpa [strLt, charsLt] using h2)
  have hlist : a.toList = b.toList :=
    List.map_injective_iff.mpr
      (fun c1 c2 hcc => Char.ext (UInt32.ext hcc)) hc
  exact String.ext hlist

lemma strLt_total (a b : String) : a = b ∨ strLt a b = true ∨ strLt b a = true := by
  by_cases h1 : strLt a b = true
  · exact Or.inr (Or.inl h1)
  · by_cases h2 : strLt b a = true
    · exact Or.inr (Or.inr h2)
    · exact Or.inl (strLt_connex (by simpa using h1) (by simpa using h2))

lemma lookupD_skip {m n : String} (h : m ≠ n) (t : STree) (ld : SDirs) :
    lookupD n (.cons m t ld) = lookupD n ld := by
  simp [lookupD, h]

lemma lookupD_none {n : String} : ∀ (ld : SDirs), (∀ m ∈ dirNames ld, m ≠ n) →
    lookupD n ld = none
  | .nil, _ => rfl
  | .cons m t rest, h => by
    rw [lookupD_skip (h m (by simp [dirNames])) t rest]
    exact lookupD_none rest (fun x hx => h x (by
      rw [show dirNames (.cons m t rest) = m :: dirNames rest from rfl]
      exact List.mem_cons_of_mem _ hx))

lemma mergeD_drop {n : String} (t : STree) (ld : SDirs) :
    ∀ (rd : SDirs), (∀ m ∈ dirNames rd, m ≠ n) →
    mergeD (.cons n t ld) rd = mergeD ld rd
  | .nil, _ => rfl
  | .cons m t2 rest, h => by
    have hm : m ≠ n := h m (by simp [dirNames])
    simp only [mergeD]
    rw [lookupD_skip (Ne.symm hm) t ld]
    rw [mergeD_drop t ld rest (fun x hx => h x (by
      rw [show dirNames (.cons m t2 rest) = m :: dirNames rest from rfl]
      exact List.mem_cons_of_mem _ hx))]

lemma lookupF_skip {m n : String} (h : m ≠ n) (a : Atts) (lf : List (String × Atts)) :
    lookupF n ((m, a) :: lf) = lookupF n lf := by
  simp [lookupF, List.find?, h]

lemma lookupF_none {n : String} : ∀ (lf : List (String × Atts)),
    (∀ m ∈ lf.map Prod.fst, m ≠ n) → lookupF n lf = none
  | [], _ => rfl
  | (m, a) :: rest, h => by
    rw [lookupF_skip (h m (by simp)) a rest]
    exact lookupF_none rest (fun x hx => h x (by
      rw [List.map_cons]
      exact List.mem_cons_of_mem _ hx))

lemma mapFiles_drop {n : String} (a : Atts) (lf : List (String × Atts)) :
    ∀ (rf : List (String × Atts)), (∀ m ∈ rf.map Prod.fst, m ≠ n) →
    mapFiles ((n, a) :: lf) rf = mapFiles lf rf
  | [], _ => rfl
  | (m2, a2) :: rest, h => by
    have hm : m2 ≠ n := h m2 (by simp)
    have htail := mapFiles_drop a lf rest (fun x hx => h x (by
      rw [List.map_cons]
      exact List.mem_cons_of_mem _ hx))
    simp only [mapFiles, List.map_cons] at htail ⊢
    rw [lookupF_skip (Ne.symm hm) a lf, htail]

/-- With `kind` present on both sides, `maybe_copy_sha` never panics and
computes exactly the spec-side `copySha`. -/
lemma maybe_copy_eq (n1 n2 : String) {a1 a2 : Atts}
    (h1 : (attsGet a1 "kind").isSome) (h2 : (attsGet a2 "kind").isSome) :
    maybe_copy_sha (.file n1 a1) (.file n2 a2) = some (.file n2 (copySha a1 a2)) := by
  obtain ⟨lk, hlk⟩ := Option.isSome_iff_exists.mp h1
  obtain ⟨rk, hrk⟩ := Option.isSome_iff_exists.mp h2
  simp only [maybe_copy_sha, SureNode.atts?, copySha, hlk, hrk]
  by_cases hsha : attsContains a2 "sha1"
  · simp [hsha]
  · simp only [hsha, Bool.false_eq_true, if_false]
    by_cases hlkf : lk = "file"
    · subst hlkf
      by_cases hrkf : rk = "file"
      · subst hrkf
        by_cases hino : attsGet a1 "ino" = attsGet a2 "ino"
        · by_cases hct : attsGet a1 "ctime" = attsGet a2 "ctime"
          · simp only [hino, hct, ne_eq, not_true_eq_false, or_self, if_false,
              and_true, true_and, if_true]
            cases hs : attsGet a1 "sha1" <;> simp [withAtts]
          · simp [hino, hct]
        · simp [hino]
      · simp [hrkf]
    · simp [hlkf]

/-! ### The file-section merge -/

theorem mSteps_files (lf rf : List (String × Atts)) (k : List CState)
    (ltail rtail : List SureNode)
    (hsl : (lf.map Prod.fst).Pairwise (fun a b => strLt a b = true))
    (hsr : (rf.map Prod.fst).Pairwise (fun a b => strLt a b = true))
    (hkl : ∀ p ∈ lf, (attsGet p.2 "kind").isSome)
    (hkr : ∀ p ∈ rf, (attsGet p.2 "kind").isSome) :
    Steps (stOf (filesN lf ++ .leave :: ltail) (filesN rf ++ .leave :: rtail)
        (CState.sameFiles :: k) true)
      (filesN (mapFiles lf rf) ++ [.leave])
      (stOf ltail rtail k true) := by
  match lf, rf with
  | [], [] =>
    exact Steps.emit step_sf_leaveleave (Steps.refl _)
  | [], (m, a) :: rest =>
    have hsr2 : (m :: rest.map Prod.fst).Pairwise (fun a b => strLt a b = true) := by
      simpa using hsr
    have ih := mSteps_files [] rest k ltail rtail hsl
      (List.pairwise_cons.mp hsr2).2
      hkl (fun p hp => hkr p (by simp [hp]))
    have := Steps.emit (step_sf_rightextra m a) ih
    simpa [filesN, mapFiles, lookupF] using this
  | (n, a) :: rest, [] =>
    have hsl2 : (n :: rest.map Prod.fst).Pairwise (fun a b => strLt a b = true) := by
      simpa using hsl
    have ih := mSteps_files rest [] k ltail rtail
      (List.pairwise_cons.mp hsl2).2 hsr
      (fun p hp => hkl p (by simp [hp])) hkr
    have := Steps.skip (step_sf_leftextra n a) ih
    simpa [filesN, mapFiles] using this
  | (n1, a1) :: lrest, (n2, a2) :: rrest =>
    have hsl2 : (n1 :: lrest.map Prod.fst).Pairwise (fun a b => strLt a b = true) := by
      simpa using hsl
    have hsr2 : (n2 :: rrest.map Prod.fst).Pairwise (fun a b => strLt a b = true) := by
      simpa using hsr
    have hpl := List.pairwise_cons.mp hsl2
    have hpr := List.pairwise_cons.mp hsr2
    have hk1 : (attsGet a1 "kind").isSome := hkl (n1, a1) (by simp)
    have hk2 : (attsGet a2 "kind").isSome := hkr (n2, a2) (by simp)
    rcases strLt_total n1 n2 with heq | hlt | hgt
    · subst heq
      have ih := mSteps_files lrest rrest k ltail rtail hpl.2 hpr.2
        (fun p hp => hkl p (by simp [hp])) (fun p hp => hkr p (by simp [hp]))
      have hstep : combStep (stOf (.file n1 a1 :: (filesN lrest ++ .leave :: ltail))
            (.file n1 a2 :: (filesN rrest ++ .leave :: rtail)) (CState.sameFiles :: k) true) =
          .node (.file n1 (copySha a1 a2))
            (stOf (filesN lrest ++ .leave :: ltail) (filesN rrest ++ .leave :: rtail)
              (CState.sameFiles :: k) true) :=
        step_sf_eq (maybe_copy_eq n1 n1 hk1 hk2)
      have := Steps.emit hstep ih
      have hdrop : mapFiles ((n1, a1) :: lrest) rrest = mapFiles lrest rrest :=
        mapFiles_drop a1 lrest rrest (fun m hm =>
          Ne.symm (strLt_ne (hpr.1 m hm)))
      have hlookup : lookupF n1 ((n1, a1) :: lrest) = some a1 := by
        simp [lookupF, List.find?]
      have hmf : mapFiles ((n1, a1) :: lrest) ((n1, a2) :: rrest) =
          (n1, copySha a1 a2) :: mapFiles lrest rrest := by
        have hd := hdrop
        simp only [mapFiles, List.map_cons] at hd ⊢
        rw [hlookup, hd]
      rw [hmf]
      simpa [filesN] using this
    · have ih := mSteps_files lrest ((n2, a2) :: rrest) k ltail rtail hpl.2 hsr
        (fun p hp => hkl p (by simp [hp])) hkr
      have hstep : combStep (stOf (.file n1 a1 :: (filesN lrest ++ .leave :: ltail))
            (.file n2 a2 :: (filesN rrest ++ .leave :: rtail)) (CState.sameFiles :: k) true) =
          .cont (stOf (filesN lrest ++ .leave :: ltail)
            (.file n2 a2 :: (filesN rrest ++ .leave :: rtail)) (CState.sameFiles :: k) true) :=
        step_sf_lt hlt a1 a2
      have := Steps.skip hstep ih
      have hdrop : mapFiles ((n1, a1) :: lrest) ((n2, a2) :: rrest) =
          mapFiles lrest ((n2, a2) :: rrest) :=
        mapFiles_drop a1 lrest _ (fun m hm => by
          rw [List.map_cons] at hm
          rcases List.mem_cons.mp hm with hm | hm
          · subst hm; exact Ne.symm (strLt_ne hlt)
          · exact Ne.symm (strLt_ne (strLt_trans hlt (hpr.1 m hm))))
      simpa [filesN, hdrop] using this
    · have ih := mSteps_files ((n1, a1) :: lrest) rrest k ltail rtail hsl hpr.2
        hkl (fun p hp => hkr p (by simp [hp]))
      have hstep : combStep (stOf (.file n1 a1 :: (filesN lrest ++ .leave :: ltail))
            (.file n2 a2 :: (filesN rrest ++ .leave :: rtail)) (CState.sameFiles :: k) true) =
          .node (.file n2 a2)
            (stOf (.file n1 a1 :: (filesN lrest ++ .leave :: ltail))
              (filesN rrest ++ .leave :: rtail) (CState.sameFiles :: k) true) :=
        step_sf_gt hgt a1 a2
      have := Steps.emit hstep ih
      have hlookup : lookupF n2 ((n1, a1) :: lrest) = none :=
        lookupF_none _ (fun m hm => by
          rw [List.map_cons] at hm
          rcases List.mem_cons.mp hm with hm | hm
          · subst hm; exact Ne.symm (strLt_ne hgt)
          · exact Ne.symm (strLt_ne (strLt_trans hgt (hpl.1 m hm))))
      simpa [filesN, mapFiles, hlookup] using this
termination_by (sizeOf rf, sizeOf lf)

/-! ### The directory-section merge -/

lemma mergeT_attsOf (l r : STree) : (mergeT l r).attsOf = r.attsOf := by
  cases l; cases r; rfl

lemma flattenD_cons_expand (n : String) (t : STree) (rest : SDirs) (Z : List SureNode) :
    flattenD (.cons n t rest) ++ Z =
      .enter n t.attsOf :: (innerOf t ++ (flattenD rest ++ Z)) := by
  rw [show flattenD (.cons n t rest) = flattenT n t ++ flattenD rest from rfl, flattenT_eq]
  simp [List.append_assoc]

theorem ldSteps_sub (t : STree) (k : List CState) (ls rs : List SureNode) :
    Steps (stOf (innerOf t ++ ls) rs (CState.leftDirs :: k) true) []
      (stOf ls rs k true) := by
  cases t with
  | mk atts dirs files =>
    have := ldSteps_inner dirs files k ls rs
    simpa [innerOf, List.append_assoc] using this

theorem rdSteps_sub (t : STree) (k : List CState) (ls rs : List SureNode) :
    Steps (stOf ls (innerOf t ++ rs) (CState.rightDirs :: k) true) (innerOf t)
      (stOf ls rs k true) := by
  cases t with
  | mk atts dirs files =>
    have := rdSteps_inner dirs files k ls rs
    simp only [innerOf]
    simpa [List.append_assoc] using this

lemma pairwiseStrLt_iff : ∀ l : List String,
    pairwiseStrLt l = true ↔ l.Pairwise (fun a b => strLt a b = true)
  | [] => by simp [pairwiseStrLt]
  | a :: rest => by
    rw [show pairwiseStrLt (a :: rest) =
      (rest.all (fun b => strLt a b) && pairwiseStrLt rest) from rfl]
    rw [Bool.and_eq_true, List.all_eq_true, pairwiseStrLt_iff rest, List.pairwise_cons]

lemma wfT_parts {la : Atts} {ld : SDirs} {lf : List (String × Atts)}
    (h : wfT (.mk la ld lf) = true) :
    wfD ld = true ∧ (dirNames ld).Pairwise (fun a b => strLt a b = true) ∧
      (lf.map Prod.fst).Pairwise (fun a b => strLt a b = true) ∧
      ∀ p ∈ lf, (attsGet p.2 "kind").isSome := by
  rw [show wfT (.mk la ld lf) =
    (wfD ld && pairwiseStrLt (dirNames ld) && pairwiseStrLt (lf.map Prod.fst) &&
      lf.all (fun p => (attsGet p.2 "kind").isSome)) from rfl] at h
  simp only [Bool.and_eq_true, List.all_eq_true] at h
  exact ⟨h.1.1.1, (pairwiseStrLt_iff _).mp h.1.1.2, (pairwiseStrLt_iff _).mp h.1.2, h.2⟩

lemma wfD_parts {n : String} {t : STree} {rest : SDirs}
    (h : wfD (.cons n t rest) = true) : wfT t = true ∧ wfD rest = true := by
  rw [show wfD (.cons n t rest) = (wfT t && wfD rest) from rfl] at h
  simpa [Bool.and_eq_true] using h

mutual
theorem mSteps_dirs (ld rd : SDirs) (k : List CState) (ltail rtail : List SureNode)
    (hsl : (dirNames ld).Pairwise (fun a b => strLt a b = true))
    (hsr : (dirNames rd).Pairwise (fun a b => strLt a b = true))
    (hwl : wfD ld = true) (hwr : wfD rd = true) :
    Steps (stOf (flattenD ld ++ .sep :: ltail) (flattenD rd ++ .sep :: rtail)
        (CState.sameDirs :: k) true)
      (flattenD (mergeD ld rd))
      (stOf (.sep :: ltail) (.sep :: rtail) (CState.sameDirs :: k) true) := by
  match ld, rd with
  | .nil, .nil =>
    exact Steps.refl _
  | .cons n1 t1 r1, .nil =>
    have hp1 : (n1 :: dirNames r1).Pairwise (fun a b => strLt a b = true) := hsl
    have hw1 := wfD_parts hwl
    have ih := mSteps_dirs r1 .nil k ltail rtail (List.pairwise_cons.mp hp1).2 hsr hw1.2 hwr
    rw [flattenD_cons_expand]
    refine Steps.skip (step_sd_leftextra n1 t1.attsOf) ?_
    refine Steps.trans (ldSteps_sub t1 (CState.sameDirs :: k)
      (flattenD r1 ++ .sep :: ltail) _) ?_
    simpa [mergeD] using ih
  | .nil, .cons n2 t2 r2 =>
    have hp2 : (n2 :: dirNames r2).Pairwise (fun a b => strLt a b = true) := hsr
    have hw2 := wfD_parts hwr
    have ih := mSteps_dirs .nil r2 k ltail rtail hsl (List.pairwise_cons.mp hp2).2 hwl hw2.2
    rw [flattenD_cons_expand]
    have hcopy := rdSteps_sub t2 (CState.sameDirs :: k)
      (flattenD SDirs.nil ++ .sep :: ltail) (flattenD r2 ++ .sep :: rtail)
    have hrun := Steps.emit (step_sd_rightextra n2 t2.attsOf) (Steps.trans hcopy ih)
    have hout : flattenD (mergeD .nil (.cons n2 t2 r2)) =
        .enter n2 t2.attsOf :: (innerOf t2 ++ flattenD (mergeD .nil r2)) := by
      rw [show mergeD .nil (.cons n2 t2 r2) = .cons n2 t2 (mergeD .nil r2) from rfl]
      rw [show flattenD (.cons n2 t2 (mergeD SDirs.nil r2)) =
        flattenT n2 t2 ++ flattenD (mergeD SDirs.nil r2) from rfl, flattenT_eq]
      simp
    rw [hout]
    exact hrun
  | .cons n1 t1 r1, .cons n2 t2 r2 =>
    have hp1 : (n1 :: dirNames r1).Pairwise (fun a b => strLt a b = true) := hsl
    have hp2 : (n2 :: dirNames r2).Pairwise (fun a b => strLt a b = true) := hsr
    have hq1 := List.pairwise_cons.mp hp1
    have hq2 := List.pairwise_cons.mp hp2
    have hw1 := wfD_parts hwl
    have hw2 := wfD_parts hwr
    rcases strLt_total n1 n2 with heq | hlt | hgt
    · subst heq
      have hinner := mSteps_inner t1 t2 (CState.sameDirs :: k)
        (flattenD r1 ++ .sep :: ltail) (flattenD r2 ++ .sep :: rtail) hw1.1 hw2.1
      have ih := mSteps_dirs r1 r2 k ltail rtail hq1.2 hq2.2 hw1.2 hw2.2
      rw [flattenD_cons_expand, flattenD_cons_expand]
      have hrun := Steps.emit (step_sd_eq n1 t1.attsOf t2.attsOf)
        (Steps.trans hinner ih)
      have hlk : lookupD n1 (SDirs.cons n1 t1 r1) = some t1 := by simp [lookupD]
      have hdrop : mergeD (.cons n1 t1 r1) r2 = mergeD r1 r2 :=
        mergeD_drop t1 r1 r2 (fun m hm => Ne.symm (strLt_ne (hq2.1 m hm)))
      have hout : flattenD (mergeD (.cons n1 t1 r1) (.cons n1 t2 r2)) =
          .enter n1 t2.attsOf :: (innerOf (mergeT t1 t2) ++ flattenD (mergeD r1 r2)) := by
        rw [show mergeD (.cons n1 t1 r1) (.cons n1 t2 r2) =
          .cons n1 (match lookupD n1 (SDirs.cons n1 t1 r1) with
            | some lt => mergeT lt t2
            | none => t2) (mergeD (.cons n1 t1 r1) r2) from rfl]
        rw [hlk, hdrop]
        rw [show flattenD (.cons n1 (mergeT t1 t2) (mergeD r1 r2)) =
          flattenT n1 (mergeT t1 t2) ++ flattenD (mergeD r1 r2) from rfl, flattenT_eq]
        rw [mergeT_attsOf]
        simp
      rw [hout]
      exact hrun
    · have hskim := ldSteps_sub t1 (CState.sameDirs :: k)
        (flattenD r1 ++ .sep :: ltail)
        (.enter n2 t2.attsOf :: (innerOf t2 ++ (flattenD r2 ++ .sep :: rtail)))
      have ih := mSteps_dirs r1 (.cons n2 t2 r2) k ltail rtail hq1.2 hsr hw1.2 hwr
      rw [flattenD_cons_expand n2 t2 r2 (.sep :: rtail)] at ih
      rw [flattenD_cons_expand, flattenD_cons_expand]
      have hrun := Steps.skip (step_sd_lt hlt t1.attsOf t2.attsOf)
        (Steps.trans hskim ih)
      have hdrop : mergeD (.cons n1 t1 r1) (.cons n2 t2 r2) =
          mergeD r1 (.cons n2 t2 r2) :=
        mergeD_drop t1 r1 _ (fun m hm => by
          rw [show dirNames (.cons n2 t2 r2) = n2 :: dirNames r2 from rfl] at hm
          rcases List.mem_cons.mp hm with hm | hm
          · subst hm; exact Ne.symm (strLt_ne hlt)
          · exact Ne.symm (strLt_ne (strLt_trans hlt (hq2.1 m hm))))
      rw [hdrop]
      simpa using hrun
    · have hcopy := rdSteps_sub t2 (CState.sameDirs :: k)
        (.enter n1 t1.attsOf :: (innerOf t1 ++ (flattenD r1 ++ .sep :: ltail)))
        (flattenD r2 ++ .sep :: rtail)
      have ih := mSteps_dirs (.cons n1 t1 r1) r2 k ltail rtail hsl hq2.2 hwl hw2.2
      rw [flattenD_cons_expand n1 t1 r1 (.sep :: ltail)] at ih
      rw [flattenD_cons_expand, flattenD_cons_expand]
      have hrun := Steps.emit (step_sd_gt hgt t1.attsOf t2.attsOf)
        (Steps.trans hcopy ih)
      have hlk : lookupD n2 (SDirs.cons n1 t1 r1) = none :=
        lookupD_none _ (fun m hm => by
          rw [show dirNames (.cons n1 t1 r1) = n1 :: dirNames r1 from rfl] at hm
          rcases List.mem_cons.mp hm with hm | hm
          · subst hm; exact Ne.symm (strLt_ne hgt)
          · exact Ne.symm (strLt_ne (strLt_trans hgt (hq1.1 m hm))))
      have hout : flattenD (mergeD (.cons n1 t1 r1) (.cons n2 t2 r2)) =
          .enter n2 t2.attsOf ::
            (innerOf t2 ++ flattenD (mergeD (.cons n1 t1 r1) r2)) := by
        rw [show mergeD (.cons n1 t1 r1) (.cons n2 t2 r2) =
          .cons n2 (match lookupD n2 (SDirs.cons n1 t1 r1) with
            | some lt => mergeT lt t2
            | none => t2) (mergeD (.cons n1 t1 r1) r2) from rfl]
        rw [hlk]
        rw [show flattenD (.cons n2 t2 (mergeD (SDirs.cons n1 t1 r1) r2)) =
          flattenT n2 t2 ++ flattenD (mergeD (SDirs.cons n1 t1 r1) r2) from rfl,
          flattenT_eq]
        simp
      rw [hout]
      exact hrun
termination_by (sizeOf rd, sizeOf ld)

theorem mSteps_inner (lt rt : STree) (k : List CState) (ltail rtail : List SureNode)
    (hwl : wfT lt = true) (hwr : wfT rt = true) :
    Steps (stOf (innerOf lt ++ ltail) (innerOf rt ++ rtail) (CState.sameDirs :: k) true)
      (innerOf (mergeT lt rt))
      (stOf ltail rtail k true) := by
  match lt, rt with
  | .mk la ld lf, .mk ra rd rf =>
    have h1 := wfT_parts hwl
    have h2 := wfT_parts hwr
    have hdirs := mSteps_dirs ld rd (k) (filesN lf ++ .leave :: ltail)
      (filesN rf ++ .leave :: rtail) h1.2.1 h2.2.1 h1.1 h2.1
    have hfiles := mSteps_files lf rf k ltail rtail h1.2.2.1 h2.2.2.1
      h1.2.2.2 h2.2.2.2
    have hrun := Steps.trans hdirs (Steps.emit step_sd_sepsep hfiles)
    have hin : ∀ (d : SDirs) (fs : List (String × Atts)) (tail : List SureNode),
        innerOf (.mk ra d fs) ++ tail = flattenD d ++ .sep :: (filesN fs ++ .leave :: tail) := by
      intro d fs tail
      simp [innerOf, List.append_assoc]
    have hinL : innerOf (.mk la ld lf) ++ ltail =
        flattenD ld ++ .sep :: (filesN lf ++ .leave :: ltail) := by
      simp [innerOf, List.append_assoc]
    have hinR : innerOf (.mk ra rd rf) ++ rtail =
        flattenD rd ++ .sep :: (filesN rf ++ .leave :: rtail) := by
      simp [innerOf, List.append_assoc]
    rw [hinL, hinR]
    have hout : innerOf (mergeT (.mk la ld lf) (.mk ra rd rf)) =
        flattenD (mergeD ld rd) ++ .sep :: (filesN (mapFiles lf rf) ++ [.leave]) := rfl
    rw [hout]
    simpa using hrun
termination_by (sizeOf rt, sizeOf lt)
end

lemma combStep_final : combStep (stOf [] [] [] true) = .done := rfl

/-- Claim C2, amended: for well-formed left and right trees (strictly
sorted names, `kind` present on files), the combiner yields exactly the
right stream with each file's attributes run through `copySha` against the
same-named left file of the same directory — so nodes are unchanged except
that a `File` may gain a `sha1`.  The trailing conjuncts state when
`copySha` copies: exactly when the right has no `sha1`, both kinds are
`file`, `ino` and `ctime` agree *as options* (equal values, or absent on
both sides), and the left has a `sha1`. -/
theorem combiner_correct (L R : STree) (hL : wfT L = true) (hR : wfT R = true) :
    (∃ N, ∀ fuel, N ≤ fuel →
      combine (flattenT "__root__" L) (flattenT "__root__" R) fuel =
        some (.ok (flattenT "__root__" (mergeT L R)))) ∧
      (∀ latts ratts v, attsGet latts "sha1" = some v →
        attsContains ratts "sha1" = false →
        attsGet latts "kind" = some "file" → attsGet ratts "kind" = some "file" →
        attsGet latts "ino" = attsGet ratts "ino" →
        attsGet latts "ctime" = attsGet ratts "ctime" →
        copySha latts ratts = attsInsert "sha1" v ratts) ∧
      (∀ latts ratts, attsGet latts "sha1" = none → copySha latts ratts = ratts) ∧
      (∀ latts ratts,
        (attsContains ratts "sha1" = true ∨
          ¬(attsGet latts "kind" = some "file" ∧ attsGet ratts "kind" = some "file" ∧
            attsGet latts "ino" = attsGet ratts "ino" ∧
            attsGet latts "ctime" = attsGet ratts "ctime")) →
        copySha latts ratts = ratts) := by
  refine ⟨?_, ?_, ?_, ?_⟩
  · have hinner := mSteps_inner L R [] [] [] hL hR
    rw [List.append_nil, List.append_nil] at hinner
    have hsteps := Steps.emit (step_root L.attsOf R.attsOf) hinner
    obtain ⟨N, hN⟩ := combRun_of_steps hsteps combStep_final
    refine ⟨N, fun fuel hf => ?_⟩
    have hstart : combine (flattenT "__root__" L) (flattenT "__root__" R) fuel =
        combRun fuel (stOf (.enter "__root__" L.attsOf :: innerOf L)
          (.enter "__root__" R.attsOf :: innerOf R) [] false) := by
      rw [flattenT_eq "__root__" L, flattenT_eq "__root__" R]
      rfl
    rw [hstart, hN fuel hf, flattenT_eq, mergeT_attsOf]
  · intro latts ratts v hv hsha hlk hrk hino hct
    simp [copySha, hsha, hlk, hrk, hino, hct, hv]
  · intro latts ratts hnone
    by_cases hsha : attsContains ratts "sha1"
    · simp [copySha, hsha]
    · by_cases hcond : attsGet latts "kind" = some "file" ∧ attsGet ratts "kind" = some "file" ∧
        attsGet latts "ino" = attsGet ratts "ino" ∧ attsGet latts "ctime" = attsGet ratts "ctime"
      · simp [copySha, hsha, hcond, hnone]
      · simp [copySha, hsha, hcond]
  · intro latts ratts h
    rcases h with h | h
    · simp [copySha, h]
    · by_cases hsha : attsContains ratts "sha1"
      · simp [copySha, hsha]
      · simp [copySha, hsha, h]

/-- Witness for the amended C2 at a concrete pair of one-file trees. -/
theorem combiner_correct_witness :
    wfT (.mk [] .nil [("x", [("ctime", "5"), ("ino", "7"), ("kind", "file"), ("sha1", "ab")])])
        = true ∧
      wfT (.mk [] .nil [("x", [("ctime", "5"), ("ino", "7"), ("kind", "file")])]) = true ∧
      ((∃ N, ∀ fuel, N ≤ fuel →
        combine
          (flattenT "__root__"
            (.mk [] .nil [("x", [("ctime", "5"), ("ino", "7"), ("kind", "file"), ("sha1", "ab")])]))
          (flattenT "__root__"
            (.mk [] .nil [("x", [("ctime", "5"), ("ino", "7"), ("kind", "file")])])) fuel =
          some (.ok (flattenT "__root__"
            (mergeT
              (.mk [] .nil [("x", [("ctime", "5"), ("ino", "7"), ("kind", "file"), ("sha1", "ab")])])
              (.mk [] .nil [("x", [("ctime", "5"), ("ino", "7"), ("kind", "file")])]))))) ∧
      (∀ latts ratts v, attsGet latts "sha1" = some v →
        attsContains ratts "sha1" = false →
        attsGet latts "kind" = some "file" → attsGet ratts "kind" = some "file" →
        attsGet latts "ino" = attsGet ratts "ino" →
        attsGet latts "ctime" = attsGet ratts "ctime" →
        copySha latts ratts = attsInsert "sha1" v ratts) ∧
      (∀ latts ratts, attsGet latts "sha1" = none → copySha latts ratts = ratts) ∧
      (∀ latts ratts,
        (attsContains ratts "sha1" = true ∨
          ¬(attsGet latts "kind" = some "file" ∧ attsGet ratts "kind" = some "file" ∧
            attsGet latts "ino" = attsGet ratts "ino" ∧
            attsGet latts "ctime" = attsGet ratts "ctime")) →
        copySha latts ratts = ratts)) :=
  ⟨by decide, by decide, combiner_correct _ _ (by decide) (by decide)⟩

end Rsure
